import Mathlib

/-!
# Verification of the sentencing-research parsing core

A shallow embedding, over `List Char`, of the field micro-parsers in
`sentencing_data_processing.py`, the offence-code matcher, the citation
extractor and the text cleaner of `case_data_processing.py` /
`backend/text_processing.py`, together with proofs and refutations of the
specification's claims about them.

Strings are modelled as `List Char`.  Missing/NaN raw values are modelled as
`none : Option (List Char)`.  Regex-captured decimal numbers are modelled
exactly as fixed-point decimals (`Dec`), the exact value of the decimal
literal the regex captured.
-/

set_option maxHeartbeats 1600000
set_option maxRecDepth 4096

namespace Sentencing

/-- ASCII whitespace recognised by Python's `str.strip` and the regex
class `\s`. -/
def isPySpace (c : Char) : Bool :=
  c = ' ' || c = '\t' || c = '\n' || c = '\r' || c = '\x0b' || c = '\x0c'

/-- Python `str.lstrip()` (ASCII whitespace). -/
def lstrip (s : List Char) : List Char := s.dropWhile isPySpace

/-- Python `str.rstrip()` (ASCII whitespace). -/
def rstrip : List Char → List Char
  | [] => []
  | c :: rest =>
    let r := rstrip rest
    if r.isEmpty then (if isPySpace c then [] else [c]) else c :: r

/-- Python `str.strip()` (ASCII whitespace). -/
def pyStrip (s : List Char) : List Char := rstrip (lstrip s)

/-- ASCII `str.lower` on one character. -/
def pyToLower (c : Char) : Char :=
  if 'A' ≤ c && c ≤ 'Z' then Char.ofNat (c.toNat + 32) else c

/-- Python `str.lower()` (ASCII). -/
def pyLower (s : List Char) : List Char := s.map pyToLower

/-- `c in s` for a single character. -/
def containsChar (s : List Char) (c : Char) : Bool := s.any (· = c)

/-- Python `needle in hay` substring test. -/
def containsSub (hay needle : List Char) : Bool :=
  match hay with
  | [] => needle.isEmpty
  | _ :: rest => needle.isPrefixOf hay || containsSub rest needle

/-- Python `hay.find(needle)`: index of the leftmost occurrence. -/
def pyFind (hay needle : List Char) : Option Nat :=
  match hay with
  | [] => if needle.isEmpty then some 0 else none
  | _ :: rest =>
    if needle.isPrefixOf hay then some 0
    else (pyFind rest needle).map (· + 1)

/-- Python `s.split(sep)` for a one-character separator. -/
def pySplit (sep : Char) : List Char → List (List Char)
  | [] => [[]]
  | c :: rest =>
    match pySplit sep rest with
    | [] => []
    | h :: t => if c = sep then [] :: h :: t else (c :: h) :: t

/-- Python `s.split(sep, 1)` for a one-character separator: the part before
the first separator, and (when a separator occurs) the rest. -/
def pySplitFirst (sep : Char) : List Char → List Char × Option (List Char)
  | [] => ([], none)
  | c :: rest =>
    if c = sep then ([], some rest)
    else
      let r := pySplitFirst sep rest
      (c :: r.1, r.2)

/-- Python `s.replace(target, repl)` for a non-empty `target`; replaces every
occurrence, left to right, non-overlapping.  Fuelled structural recursion
(the fuel is the length of the string, always sufficient). -/
def replaceAllF (t0 : Char) (ts repl : List Char) : Nat → List Char → List Char
  | 0, s => s
  | _ + 1, [] => []
  | fuel + 1, c :: rest =>
    if (t0 :: ts).isPrefixOf (c :: rest) then
      repl ++ replaceAllF t0 ts repl fuel ((c :: rest).drop (ts.length + 1))
    else c :: replaceAllF t0 ts repl fuel rest

/-- Python `s.replace(target, repl)` (empty `target` returns `s` unchanged,
which the sources never do). -/
def replaceAll (s target repl : List Char) : List Char :=
  match target with
  | [] => s
  | t0 :: ts => replaceAllF t0 ts repl s.length s

/-- Value of a digit character. -/
def digitVal (c : Char) : Nat := c.toNat - '0'.toNat

/-- Numeric value of a digit string. -/
def digitsToNat (ds : List Char) : Nat :=
  ds.foldl (fun n c => 10 * n + digitVal c) 0

/-- Exact value of a captured decimal literal: `num / 10 ^ exp`.
This is the exact rational the Python `float(...)` call approximates. -/
structure Dec where
  num : Nat
  exp : Nat
deriving DecidableEq, Repr

/-- The rational value of a `Dec`. -/
def Dec.toRat (d : Dec) : ℚ := (d.num : ℚ) / 10 ^ d.exp

/-- `int(m * q)` for a non-negative decimal `q`: multiply and truncate. -/
def Dec.scaleFloor (d : Dec) (m : Nat) : Nat := m * d.num / 10 ^ d.exp

/-- Python `q == n` for a decimal `q` and integer literal `n`. -/
def Dec.eqInt (d : Dec) (n : Nat) : Bool := d.num = n * 10 ^ d.exp

/-- `Dec` built from captured integer digits and (possibly empty)
fraction digits. -/
def qtyOf (ds fs : List Char) : Dec := ⟨digitsToNat (ds ++ fs), fs.length⟩

/-- The time units of the jail-string grammar. -/
inductive TimeUnit | y | m | d
deriving DecidableEq, Repr

/-- One `(quantity, unit)` row of the parsed jail dataframe. -/
structure JailComp where
  quantity : Dec
  unit : TimeUnit
deriving DecidableEq, Repr

/-- Result of `parse_jail_string`: the `"indeterminate"` sentinel string, or
a dataframe of `(quantity, unit)` rows. -/
inductive JailParse
  | indeterminate
  | components (rows : List JailComp)
deriving DecidableEq, Repr

/-- Is this character matched by `[ymd]` with `re.IGNORECASE`? -/
def isUnitChar (c : Char) : Bool :=
  c = 'y' || c = 'Y' || c = 'm' || c = 'M' || c = 'd' || c = 'D'

/-- The unit denoted by a matched unit letter, after the source's
`.lower()` call. -/
def unitOfChar (c : Char) : TimeUnit :=
  if c = 'y' || c = 'Y' then .y else if c = 'm' || c = 'M' then .m else .d

/-- One attempted regex match of `(\d+(?:\.\d+)?)\s*([ymd])` at the head of
`s` (which starts with a digit): the captured quantity, unit letter, and the
rest of the string after the match, or `none` when the attempt fails. -/
def matchNumUnit (s : List Char) : Option (Dec × Char × List Char) :=
  let ds := s.takeWhile Char.isDigit
  let r1 := s.dropWhile Char.isDigit
  let hasFrac := match r1 with
    | '.' :: d :: _ => d.isDigit
    | _ => false
  let fs := if hasFrac then r1.tail.takeWhile Char.isDigit else []
  let r2 := if hasFrac then r1.tail.dropWhile Char.isDigit else r1
  let r3 := r2.dropWhile isPySpace
  match r3 with
  | u :: r4 => if isUnitChar u then some (qtyOf ds fs, u, r4) else none
  | [] => none

/-- `re.findall(r'(\d+(?:\.\d+)?)\s*([ymd])', s, re.IGNORECASE)`, fuelled:
leftmost non-overlapping matches, scanning restarting one character later
after a failed attempt. -/
def findallF : Nat → List Char → List JailComp
  | 0, _ => []
  | _ + 1, [] => []
  | fuel + 1, c :: rest =>
    if c.isDigit then
      match matchNumUnit (c :: rest) with
      | some (q, u, r4) => ⟨q, unitOfChar u⟩ :: findallF fuel r4
      | none => findallF fuel rest
    else findallF fuel rest

/-- All matches of the jail-component regex in `s`. -/
def findall (s : List Char) : List JailComp := findallF s.length s

/-- `parse_jail_string` (`sentencing_data_processing.py`): blank input gives
an empty dataframe; trimmed-lowercased `"indeterminate"` gives the sentinel;
otherwise the input is split on `&` (or kept whole) and every
`(number)(y|m|d)` match in each stripped part becomes one row. -/
def parse_jail_string (inp : Option (List Char)) : JailParse :=
  match inp with
  | none => .components []
  | some s0 =>
    if s0 = [] then .components []
    else
      let s := pyStrip s0
      if pyLower s = ("indeterminate".toList) then .indeterminate
      else
        let parts := if containsChar s '&' then pySplit '&' s else [s]
        .components (parts.flatMap (fun p => findall (pyStrip p)))

/-- Day contribution of one row in `calculate_total_days`: years and months
multiply then truncate via `int(...)`; a row of exactly 12 months is
special-cased to 365; days truncate the quantity. -/
def dayContrib (r : JailComp) : Nat :=
  match r.unit with
  | .y => r.quantity.scaleFloor 365
  | .m => if r.quantity.eqInt 12 then 365 else r.quantity.scaleFloor 30
  | .d => r.quantity.scaleFloor 1

/-- `calculate_total_days` (`sentencing_data_processing.py`): `None` on the
indeterminate sentinel, 0 on an empty dataframe, otherwise the sum of the
rows' day contributions. -/
def calculate_total_days (df : JailParse) : Option Nat :=
  match df with
  | .indeterminate => none
  | .components rows =>
    if rows.isEmpty then some 0
    else some (rows.foldl (fun acc r => acc + dayContrib r) 0)

/-! ## Syntax of valid jail-duration strings -/

/-- One valid `(number)(y|m|d)` pair, as written: integer digits, an
optional fraction, and a unit letter. -/
structure NumToken where
  intds : List Char
  frac : Option (List Char)
  unitc : Char
deriving DecidableEq, Repr

/-- The pair is well formed: non-empty digits, a non-empty all-digit
fraction when present, and a `y`/`m`/`d` unit letter. -/
def NumToken.wf (t : NumToken) : Bool :=
  !t.intds.isEmpty && t.intds.all Char.isDigit &&
    (match t.frac with
     | none => true
     | some f => !f.isEmpty && f.all Char.isDigit) &&
    isUnitChar t.unitc

/-- The pair as text. -/
def NumToken.render (t : NumToken) : List Char :=
  t.intds ++ (match t.frac with | none => [] | some f => '.' :: f) ++ [t.unitc]

/-- The exact decimal value of the pair's number. -/
def NumToken.qty (t : NumToken) : Dec := qtyOf t.intds (t.frac.getD [])

/-- The dataframe row this pair denotes. -/
def NumToken.comp (t : NumToken) : JailComp := ⟨t.qty, unitOfChar t.unitc⟩

/-- Valid pairs joined by the given separator. -/
def joinSep (sep : Char) : List (List Char) → List Char
  | [] => []
  | [p] => p
  | p :: q :: rest => p ++ sep :: joinSep sep (q :: rest)

/-- A jail-duration string made of valid pairs joined by `&`. -/
def renderJail (ts : List NumToken) : List Char :=
  joinSep '&' (ts.map NumToken.render)

/-- Day-equivalent of one pair under the spec's conversion rules
(1 year = 365 days, 1 month = 30 days, 12 months special-cased to 365 days,
1 day = 1 day), truncating to an integer. -/
def specDayEquiv (q : Dec) : TimeUnit → Nat
  | .y => q.scaleFloor 365
  | .m => if q.eqInt 12 then 365 else q.scaleFloor 30
  | .d => q.scaleFloor 1

/-- Exact (untruncated) day contribution of one row, for comparing the
source's truncation order against summing exactly and truncating once. -/
def exactContrib (r : JailComp) : ℚ :=
  match r.unit with
  | .y => r.quantity.toRat * 365
  | .m => if r.quantity.eqInt 12 then 365 else r.quantity.toRat * 30
  | .d => r.quantity.toRat

/-- Python `int(...)` truncation toward zero on an exact rational. -/
def pyIntQ (q : ℚ) : ℤ := if q < 0 then -⌊-q⌋ else ⌊q⌋

/-- The alternative order: sum the exact contributions, truncate once. -/
def sumThenTruncate (rows : List JailComp) : ℤ :=
  pyIntQ ((rows.map exactContrib).sum)

/-! ## Character facts -/

theorem isPySpace_cases {c : Char} (h : isPySpace c = true) :
    c = ' ' ∨ c = '\t' ∨ c = '\n' ∨ c = '\r' ∨ c = '\x0b' ∨ c = '\x0c' := by
  simpa [isPySpace, or_assoc] using h

theorem isUnitChar_cases {c : Char} (h : isUnitChar c = true) :
    c = 'y' ∨ c = 'Y' ∨ c = 'm' ∨ c = 'M' ∨ c = 'd' ∨ c = 'D' := by
  simpa [isUnitChar, or_assoc] using h

theorem digit_not_space {c : Char} (h : c.isDigit = true) :
    isPySpace c = false := by
  cases hs : isPySpace c
  · rfl
  · rcases isPySpace_cases hs with rfl | rfl | rfl | rfl | rfl | rfl <;> simp at h

theorem unit_not_space {c : Char} (h : isUnitChar c = true) :
    isPySpace c = false := by
  rcases isUnitChar_cases h with rfl | rfl | rfl | rfl | rfl | rfl <;> rfl

theorem unit_not_digit {c : Char} (h : isUnitChar c = true) :
    c.isDigit = false := by
  rcases isUnitChar_cases h with rfl | rfl | rfl | rfl | rfl | rfl <;> rfl

theorem unit_ne_amp {c : Char} (h : isUnitChar c = true) : c ≠ '&' := by
  rcases isUnitChar_cases h with rfl | rfl | rfl | rfl | rfl | rfl <;> decide

theorem digit_ne_amp {c : Char} (h : c.isDigit = true) : c ≠ '&' := by
  rintro rfl; simp [Char.isDigit] at h

theorem digit_ne_dot {c : Char} (h : c.isDigit = true) : c ≠ '.' := by
  rintro rfl; simp [Char.isDigit] at h

theorem pyToLower_digit {c : Char} (h : c.isDigit = true) :
    pyToLower c = c := by
  unfold pyToLower
  have : ('A' ≤ c && c ≤ 'Z') = false := by
    simp only [Char.isDigit, Bool.and_eq_true, decide_eq_true_eq,
      UInt32.le_def, BitVec.le_def] at h
    simp only [Bool.and_eq_false_iff, decide_eq_false_iff_not, Char.le_def,
      UInt32.le_def, BitVec.le_def]
    have h48 : (UInt32.toBitVec 48).toNat = 48 := rfl
    have h57 : (UInt32.toBitVec 57).toNat = 57 := rfl
    have h65 : ('A'.val.toBitVec).toNat = 65 := rfl
    have h90 : ('Z'.val.toBitVec).toNat = 90 := rfl
    omega
  rw [this]
  rfl

theorem pyToLower_digit_ne_i {c : Char} (h : c.isDigit = true) :
    pyToLower c ≠ 'i' := by
  rw [pyToLower_digit h]
  rintro rfl; simp [Char.isDigit] at h

/-! ## Strip and split lemmas -/

theorem rstrip_cons (c : Char) (rest : List Char) :
    rstrip (c :: rest) =
      if (rstrip rest).isEmpty then (if isPySpace c then [] else [c])
      else c :: rstrip rest := rfl

theorem rstrip_eq_self {s : List Char} (h : ∀ c ∈ s, isPySpace c = false) :
    rstrip s = s := by
  induction s with
  | nil => rfl
  | cons c rest ih =>
    have hr : rstrip rest = rest := ih (fun x hx => h x (List.mem_cons_of_mem _ hx))
    have hc : isPySpace c = false := h c (List.mem_cons_self _ _)
    rw [rstrip_cons, hr]
    cases rest with
    | nil => simp [hc]
    | cons x xs => simp

theorem pyStrip_eq_self {s : List Char} (h : ∀ c ∈ s, isPySpace c = false) :
    pyStrip s = s := by
  have hl : lstrip s = s := by
    cases s with
    | nil => rfl
    | cons c rest =>
      unfold lstrip
      rw [List.dropWhile_cons_of_neg]
      simp [h c (List.mem_cons_self _ _)]
  rw [pyStrip, hl, rstrip_eq_self h]

theorem pySplit_cons (sep c : Char) (rest : List Char) :
    pySplit sep (c :: rest) =
      match pySplit sep rest with
      | [] => []
      | h :: t => if c = sep then [] :: h :: t else (c :: h) :: t := rfl

theorem pySplit_ne_nil (sep : Char) (s : List Char) : pySplit sep s ≠ [] := by
  induction s with
  | nil => simp [pySplit]
  | cons c rest ih =>
    rw [pySplit_cons]
    rcases hr : pySplit sep rest with _ | ⟨h0, t0⟩
    · exact absurd hr ih
    · dsimp only
      split <;> simp

theorem pySplit_no_sep {sep : Char} {p : List Char}
    (h : ∀ c ∈ p, c ≠ sep) : pySplit sep p = [p] := by
  induction p with
  | nil => rfl
  | cons c rest ih =>
    have hr : pySplit sep rest = [rest] :=
      ih (fun x hx => h x (List.mem_cons_of_mem _ hx))
    rw [pySplit_cons, hr]
    simp [h c (List.mem_cons_self _ _)]

theorem pySplit_append_sep {sep : Char} {p rest : List Char}
    (h : ∀ c ∈ p, c ≠ sep) :
    pySplit sep (p ++ sep :: rest) = p :: pySplit sep rest := by
  induction p with
  | nil =>
    simp only [List.nil_append]
    rw [pySplit_cons]
    rcases hr : pySplit sep rest with _ | ⟨h0, t0⟩
    · exact absurd hr (pySplit_ne_nil sep rest)
    · simp
  | cons c p' ih =>
    have hih := ih (fun x hx => h x (List.mem_cons_of_mem _ hx))
    simp only [List.cons_append]
    rw [pySplit_cons, hih]
    simp [h c (List.mem_cons_self _ _)]

/-! ## The regex scanner on a rendered pair -/

theorem findallF_nil (fuel : Nat) : findallF fuel [] = [] := by
  cases fuel <;> rfl

theorem render_chars {t : NumToken} (h : t.wf = true) :
    ∀ c ∈ t.render, c.isDigit = true ∨ c = '.' ∨ isUnitChar c = true := by
  have h' := h
  unfold NumToken.wf at h'
  simp only [Bool.and_eq_true] at h'
  obtain ⟨⟨⟨-, hdig⟩, hfrac⟩, hunit⟩ := h'
  intro c hc
  unfold NumToken.render at hc
  simp only [List.mem_append, List.mem_singleton] at hc
  rcases hc with (hc | hc) | rfl
  · exact Or.inl (by simpa using List.all_eq_true.mp hdig c hc)
  · rcases hf : t.frac with _ | f
    · rw [hf] at hc; simp at hc
    · rw [hf] at hc hfrac
      simp only [Bool.and_eq_true] at hfrac
      rcases List.mem_cons.mp hc with rfl | hcf
      · exact Or.inr (Or.inl rfl)
      · exact Or.inl (by simpa using List.all_eq_true.mp hfrac.2 c hcf)
  · exact Or.inr (Or.inr hunit)

theorem render_no_space {t : NumToken} (h : t.wf = true) :
    ∀ c ∈ t.render, isPySpace c = false := by
  intro c hc
  rcases render_chars h c hc with hd | rfl | hu
  · exact digit_not_space hd
  · rfl
  · exact unit_not_space hu

theorem render_no_amp {t : NumToken} (h : t.wf = true) :
    ∀ c ∈ t.render, c ≠ '&' := by
  intro c hc
  rcases render_chars h c hc with hd | rfl | hu
  · exact digit_ne_amp hd
  · decide
  · exact unit_ne_amp hu

theorem matchNumUnit_render {t : NumToken} (h : t.wf = true) :
    matchNumUnit t.render = some (t.qty, t.unitc, []) := by
  have h' := h
  unfold NumToken.wf at h'
  simp only [Bool.and_eq_true] at h'
  obtain ⟨⟨⟨-, hdig⟩, hfrac⟩, hunit⟩ := h'
  have hdig' : ∀ c ∈ t.intds, Char.isDigit c = true := by
    simpa using List.all_eq_true.mp hdig
  have hud : t.unitc.isDigit = false := unit_not_digit hunit
  have hus : isPySpace t.unitc = false := unit_not_space hunit
  rcases hf : t.frac with _ | f
  · -- no fraction: render = intds ++ [unitc]
    have hren : t.render = t.intds ++ [t.unitc] := by
      unfold NumToken.render; rw [hf]; simp
    have htake : (t.intds ++ [t.unitc]).takeWhile Char.isDigit = t.intds := by
      rw [List.takeWhile_append_of_pos hdig', List.takeWhile_cons_of_neg (by simp [hud])]
      simp
    have hdrop : (t.intds ++ [t.unitc]).dropWhile Char.isDigit = [t.unitc] := by
      rw [List.dropWhile_append_of_pos hdig', List.dropWhile_cons_of_neg (by simp [hud])]
    have hnf : (match [t.unitc] with
        | '.' :: d :: _ => d.isDigit
        | _ => false) = false := by
      obtain h1 | h1 | h1 | h1 | h1 | h1 := isUnitChar_cases hunit <;> rw [h1] <;> rfl
    unfold matchNumUnit
    rw [hren, htake, hdrop]
    simp only [hnf, Bool.false_eq_true, if_false]
    rw [List.dropWhile_cons_of_neg (by simp [hus])]
    simp [hunit, NumToken.qty, hf]
  · -- fraction: render = intds ++ '.' :: f ++ [unitc]
    rw [hf] at hfrac
    simp only [Bool.and_eq_true] at hfrac
    obtain ⟨hfne, hfdig⟩ := hfrac
    have hfdig' : ∀ c ∈ f, Char.isDigit c = true := by
      simpa using List.all_eq_true.mp hfdig
    obtain ⟨f0, f', rfl⟩ : ∃ f0 f', f = f0 :: f' := by
      cases f with
      | nil => simp at hfne
      | cons a b => exact ⟨a, b, rfl⟩
    have hren : t.render = t.intds ++ '.' :: ((f0 :: f') ++ [t.unitc]) := by
      unfold NumToken.render; rw [hf]; simp
    have htake : (t.intds ++ '.' :: ((f0 :: f') ++ [t.unitc])).takeWhile Char.isDigit
        = t.intds := by
      rw [List.takeWhile_append_of_pos hdig', List.takeWhile_cons_of_neg (by decide)]
      simp
    have hdrop : (t.intds ++ '.' :: ((f0 :: f') ++ [t.unitc])).dropWhile Char.isDigit
        = '.' :: ((f0 :: f') ++ [t.unitc]) := by
      rw [List.dropWhile_append_of_pos hdig', List.dropWhile_cons_of_neg (by decide)]
    have htakef : ((f0 :: f') ++ [t.unitc]).takeWhile Char.isDigit = f0 :: f' := by
      rw [List.takeWhile_append_of_pos hfdig', List.takeWhile_cons_of_neg (by simp [hud])]
      simp
    have hdropf : ((f0 :: f') ++ [t.unitc]).dropWhile Char.isDigit = [t.unitc] := by
      rw [List.dropWhile_append_of_pos hfdig', List.dropWhile_cons_of_neg (by simp [hud])]
    unfold matchNumUnit
    rw [hren, htake, hdrop]
    simp only [List.cons_append, List.tail_cons]
    rw [show ((f0 :: (f' ++ [t.unitc])).takeWhile Char.isDigit) = f0 :: f' by
          simpa using htakef,
        show ((f0 :: (f' ++ [t.unitc])).dropWhile Char.isDigit) = [t.unitc] by
          simpa using hdropf]
    have hf0 : f0.isDigit = true := hfdig' f0 (by simp)
    simp only [hf0, if_true]
    rw [List.dropWhile_cons_of_neg (by simp [hus])]
    simp [hunit, NumToken.qty, hf]

theorem findall_render {t : NumToken} (h : t.wf = true) :
    findall t.render = [t.comp] := by
  have h' := h
  unfold NumToken.wf at h'
  simp only [Bool.and_eq_true] at h'
  obtain ⟨⟨⟨hne, hdig⟩, -⟩, -⟩ := h'
  obtain ⟨d, ds', hint⟩ : ∃ d ds', t.intds = d :: ds' := by
    cases hi : t.intds with
    | nil => rw [hi] at hne; simp at hne
    | cons a b => exact ⟨a, b, rfl⟩
  have hd : d.isDigit = true := by
    have := List.all_eq_true.mp hdig d (by rw [hint]; simp)
    simpa using this
  obtain ⟨tail, htail⟩ : ∃ tail, t.render = d :: tail := by
    refine ⟨ds' ++ ((match t.frac with | none => [] | some f => '.' :: f) ++ [t.unitc]), ?_⟩
    unfold NumToken.render
    rw [hint]
    simp
  have hm : matchNumUnit (d :: tail) = some (t.qty, t.unitc, []) := by
    rw [← htail]; exact matchNumUnit_render h
  rw [htail]
  unfold findall
  show findallF (tail.length + 1) (d :: tail) = _
  unfold findallF
  rw [hm]
  simp [hd, findallF_nil, NumToken.comp, ← htail]

/-! ## Joined renderings -/

theorem renderJail_single (t : NumToken) : renderJail [t] = t.render := rfl

theorem renderJail_cons_cons (t t' : NumToken) (ts : List NumToken) :
    renderJail (t :: t' :: ts) = t.render ++ '&' :: renderJail (t' :: ts) := rfl

theorem containsChar_false {s : List Char} {c : Char} (h : ∀ x ∈ s, x ≠ c) :
    containsChar s c = false := by
  simp only [containsChar, List.any_eq_false, decide_eq_true_eq]
  exact h

theorem containsChar_true {s : List Char} {c : Char} (h : c ∈ s) :
    containsChar s c = true := by
  simp only [containsChar, List.any_eq_true, decide_eq_true_eq]
  exact ⟨c, h, rfl⟩

theorem renderJail_no_space {ts : List NumToken} (h : ∀ t ∈ ts, t.wf = true) :
    ∀ c ∈ renderJail ts, isPySpace c = false := by
  induction ts with
  | nil => intro c hc; simp [renderJail, joinSep] at hc
  | cons t ts' ih =>
    cases ts' with
    | nil =>
      rw [renderJail_single]
      exact render_no_space (h t (List.mem_cons_self _ _))
    | cons t' ts'' =>
      rw [renderJail_cons_cons]
      intro c hc
      rcases List.mem_append.mp hc with hc | hc
      · exact render_no_space (h t (List.mem_cons_self _ _)) c hc
      · rcases List.mem_cons.mp hc with rfl | hc
        · rfl
        · exact ih (fun x hx => h x (List.mem_cons_of_mem _ hx)) c hc

theorem render_parts {t : NumToken} {ts' : List NumToken}
    (h : ∀ x ∈ t :: ts', x.wf = true) :
    (if containsChar (renderJail (t :: ts')) '&' then
       pySplit '&' (renderJail (t :: ts'))
     else [renderJail (t :: ts')]) = (t :: ts').map NumToken.render := by
  induction ts' generalizing t with
  | nil =>
    rw [renderJail_single,
      if_neg (by rw [containsChar_false (render_no_amp (h t (List.mem_cons_self _ _)))]; simp)]
    simp
  | cons t' ts'' ih =>
    have hwt := h t (List.mem_cons_self _ _)
    have hrest : ∀ x ∈ t' :: ts'', x.wf = true :=
      fun x hx => h x (List.mem_cons_of_mem _ hx)
    have hin : containsChar (renderJail (t :: t' :: ts'')) '&' = true := by
      apply containsChar_true
      rw [renderJail_cons_cons]
      exact List.mem_append.mpr (Or.inr (List.mem_cons_self _ _))
    rw [if_pos hin, renderJail_cons_cons, pySplit_append_sep (render_no_amp hwt)]
    have hih := ih hrest
    by_cases hc : containsChar (renderJail (t' :: ts'')) '&' = true
    · rw [if_pos hc] at hih
      rw [hih]
      simp
    · rw [if_neg hc] at hih
      have hone : pySplit '&' (renderJail (t' :: ts'')) = [renderJail (t' :: ts'')] := by
        apply pySplit_no_sep
        intro x hx hxe
        rw [hxe] at hx
        exact hc (containsChar_true hx)
      rw [hone, hih]
      simp

theorem flatMap_findall {ts : List NumToken} (h : ∀ t ∈ ts, t.wf = true) :
    (ts.map NumToken.render).flatMap (fun p => findall (pyStrip p)) =
      ts.map NumToken.comp := by
  induction ts with
  | nil => rfl
  | cons t ts' ih =>
    have hwt := h t (List.mem_cons_self _ _)
    simp only [List.map_cons, List.flatMap_cons]
    rw [pyStrip_eq_self (render_no_space hwt), findall_render hwt,
      ih (fun x hx => h x (List.mem_cons_of_mem _ hx))]
    rfl

theorem foldl_add_map (f : JailComp → Nat) (l : List JailComp) (init : Nat) :
    l.foldl (fun a r => a + f r) init = init + (l.map f).sum := by
  induction l generalizing init with
  | nil => simp
  | cons r l' ih =>
    simp only [List.foldl_cons, List.map_cons, List.sum_cons, ih]
    omega

theorem dayContrib_comp (t : NumToken) :
    dayContrib t.comp = specDayEquiv t.qty (unitOfChar t.unitc) := by
  cases hu : unitOfChar t.unitc <;>
    simp [dayContrib, NumToken.comp, specDayEquiv, hu]

theorem renderJail_cons_head {t : NumToken} (ts' : List NumToken)
    (hw : t.wf = true) :
    ∃ d tail, renderJail (t :: ts') = d :: tail ∧ d.isDigit = true := by
  have h' := hw
  unfold NumToken.wf at h'
  simp only [Bool.and_eq_true] at h'
  obtain ⟨⟨⟨hne, hdig⟩, -⟩, -⟩ := h'
  obtain ⟨d, ds', hint⟩ : ∃ d ds', t.intds = d :: ds' := by
    cases hi : t.intds with
    | nil => rw [hi] at hne; simp at hne
    | cons a b => exact ⟨a, b, rfl⟩
  have hd : d.isDigit = true := by
    have := List.all_eq_true.mp hdig d (by rw [hint]; simp)
    simpa using this
  have hrt : ∃ r, t.render = d :: r := by
    refine ⟨ds' ++ ((match t.frac with | none => [] | some f => '.' :: f) ++ [t.unitc]), ?_⟩
    unfold NumToken.render
    rw [hint]
    simp
  obtain ⟨r, hr⟩ := hrt
  cases ts' with
  | nil => exact ⟨d, r, by rw [renderJail_single, hr], hd⟩
  | cons t' ts'' =>
    exact ⟨d, r ++ '&' :: renderJail (t' :: ts''),
      by rw [renderJail_cons_cons, hr]; simp, hd⟩

/-- C1: for every jail-duration string composed of valid `(number)(y|m|d)`
pairs joined by `&`, `calculate_total_days` of `parse_jail_string` equals
the sum of each pair's day-equivalent under the conversion rules
1 year = 365 days, 1 month = 30 days, 12 months = 365 days (special-cased),
1 day = 1 day. -/
theorem jail_total_days_valid_pairs (ts : List NumToken)
    (h : ∀ t ∈ ts, t.wf = true) :
    calculate_total_days (parse_jail_string (some (renderJail ts))) =
      some ((ts.map (fun t => specDayEquiv t.qty (unitOfChar t.unitc))).sum) := by
  cases ts with
  | nil => rfl
  | cons t ts' =>
    have hwt := h t (List.mem_cons_self _ _)
    have hstrip : pyStrip (renderJail (t :: ts')) = renderJail (t :: ts') :=
      pyStrip_eq_self (renderJail_no_space h)
    obtain ⟨d, tail, hcons, hd⟩ := renderJail_cons_head ts' hwt
    have hne : renderJail (t :: ts') ≠ [] := by rw [hcons]; simp
    have hind : pyLower (renderJail (t :: ts')) ≠ "indeterminate".toList := by
      rw [hcons]
      intro heq
      have : pyToLower d = 'i' := by
        have := congrArg List.head? heq
        simpa [pyLower] using this
      exact pyToLower_digit_ne_i hd this
    simp only [parse_jail_string]
    rw [if_neg hne, hstrip, if_neg hind, render_parts h, flatMap_findall h]
    simp only [List.map_cons, calculate_total_days, List.isEmpty_cons,
      Bool.false_eq_true, if_false]
    rw [show ∀ l i, List.foldl (fun acc r => acc + dayContrib r) i l =
          i + (l.map dayContrib).sum from fun l i => foldl_add_map dayContrib l i]
    simp only [Nat.zero_add, ← List.map_cons, List.map_map]
    rw [show (dayContrib ∘ NumToken.comp) =
        (fun x : NumToken => specDayEquiv x.qty (unitOfChar x.unitc)) from
      funext dayContrib_comp]
    simp

/-- C1 witness: the spec's example `"1y&6m&3d"` evaluates to
365 + 180 + 3 = 548 days. -/
theorem jail_total_days_valid_pairs_witness :
    calculate_total_days (parse_jail_string (some ("1y&6m&3d".toList))) = some 548 := by
  have h := jail_total_days_valid_pairs
    [⟨['1'], none, 'y'⟩, ⟨['6'], none, 'm'⟩, ⟨['3'], none, 'd'⟩] (by decide)
  have hr : renderJail [⟨['1'], none, 'y'⟩, ⟨['6'], none, 'm'⟩, ⟨['3'], none, 'd'⟩]
      = "1y&6m&3d".toList := by decide
  rw [hr] at h
  rw [h]
  decide

/-- C2 (code bug): the source has no Unrecognized sentinel.  A non-blank
input with zero recognised components, such as `"n/a"`, parses to the same
empty component sequence a blank input yields, and `calculate_total_days`
returns 0 on it, not null — contradicting the repository's own test
`test_jail_unrecognized`, which requires a distinct sentinel and a null
total.  The indeterminate and blank behaviours do hold. -/
theorem jail_unrecognized_code_bug :
    parse_jail_string (some ("n/a".toList)) = .components [] ∧
    parse_jail_string (some []) = .components [] ∧
    parse_jail_string none = .components [] ∧
    calculate_total_days (parse_jail_string (some ("n/a".toList))) = some 0 ∧
    parse_jail_string (some ("indeterminate".toList)) = .indeterminate ∧
    calculate_total_days JailParse.indeterminate = none := by
  refine ⟨by decide, rfl, rfl, by decide, by decide, rfl⟩

/-- C10: `calculate_total_days` truncates each component's contribution
separately before summing; summing the exact contributions and truncating
once can differ, e.g. on `"0.5d&0.5d"` the source computes 0 while the
sum-first order gives 1. -/
theorem truncate_per_component :
    (∀ rows, calculate_total_days (.components rows) =
        some ((rows.map dayContrib).sum)) ∧
    parse_jail_string (some ("0.5d&0.5d".toList)) =
      .components [⟨⟨5, 1⟩, .d⟩, ⟨⟨5, 1⟩, .d⟩] ∧
    calculate_total_days (parse_jail_string (some ("0.5d&0.5d".toList))) = some 0 ∧
    sumThenTruncate [⟨⟨5, 1⟩, .d⟩, ⟨⟨5, 1⟩, .d⟩] = 1 := by
  refine ⟨?_, by decide, by decide, ?_⟩
  · intro rows
    cases rows with
    | nil => rfl
    | cons r l =>
      simp only [calculate_total_days, List.isEmpty_cons, Bool.false_eq_true, if_false]
      rw [foldl_add_map]
      simp
  · have hq : (Dec.toRat ⟨5, 1⟩) = 1 / 2 := by
      unfold Dec.toRat
      norm_num
    have he : exactContrib ⟨⟨5, 1⟩, .d⟩ = 1 / 2 := by
      unfold exactContrib
      simpa using hq
    unfold sumThenTruncate
    rw [List.map_cons, List.map_cons, List.map_nil, he]
    norm_num [pyIntQ]

/-! ## UID parser -/

/-- Components of a parsed UID. -/
structure UidComponents where
  case_id : Option (List Char)
  docket : Option (List Char)
  count : Option (List Char)
  defendant : List Char
deriving DecidableEq, Repr

/-- `parse_uid_string` (`sentencing_data_processing.py`): split the trimmed
uid on `_`; 2 parts are treated as case and count with no docket, 3 parts as
case/docket/count, 4 parts add the defendant, and any other shape takes
whatever of the first four segments is available.  The defendant defaults
to `"1"`. -/
def parse_uid_string (inp : Option (List Char)) : UidComponents :=
  match inp with
  | none => ⟨none, none, none, ['1']⟩
  | some s0 =>
    if s0 = [] then ⟨none, none, none, ['1']⟩
    else
      match pySplit '_' (pyStrip s0) with
      | [a, b] => ⟨some a, none, some b, ['1']⟩
      | [a, b, c] => ⟨some a, some b, some c, ['1']⟩
      | [a, b, c, dd] => ⟨some a, some b, some c, dd⟩
      | parts => ⟨parts.get? 0, parts.get? 1, parts.get? 2, (parts.get? 3).getD ['1']⟩

/-- C5 counterexample: for the 2-segment uid `"a_b"` the claim's in-order
reading puts `"b"` in `docket`, but the source treats a 2-part uid as
`case_id_count`, leaving `docket` null. -/
theorem uid_two_segment_counterexample :
    pySplit '_' (pyStrip ("a_b".toList)) = [['a'], ['b']] ∧
    (parse_uid_string (some ("a_b".toList))).docket = none ∧
    (parse_uid_string (some ("a_b".toList))).count = some ['b'] ∧
    (parse_uid_string (some ("a_b".toList))).docket ≠ some ['b'] := by
  decide

/-- C5 amended: for a non-blank uid, the trimmed segments map in order to
case_id, docket, count, defendant (defendant defaulting to `"1"`, extras
beyond the fourth discarded) for every segment count except exactly 2, in
which case the source assigns case_id and count and leaves docket null. -/
theorem uid_segments_in_order (s0 : List Char) (hne : s0 ≠ []) :
    ((pySplit '_' (pyStrip s0)).length ≠ 2 →
      parse_uid_string (some s0) =
        ⟨(pySplit '_' (pyStrip s0)).get? 0, (pySplit '_' (pyStrip s0)).get? 1,
         (pySplit '_' (pyStrip s0)).get? 2,
         ((pySplit '_' (pyStrip s0)).get? 3).getD ['1']⟩) ∧
    ((pySplit '_' (pyStrip s0)).length = 2 →
      parse_uid_string (some s0) =
        ⟨(pySplit '_' (pyStrip s0)).get? 0, none,
         (pySplit '_' (pyStrip s0)).get? 1, ['1']⟩) := by
  unfold parse_uid_string
  rcases hp : pySplit '_' (pyStrip s0) with _ | ⟨a, _ | ⟨b, _ | ⟨c, _ | ⟨dd, rest⟩⟩⟩⟩ <;>
    (simp [hne, hp]; try (cases rest <;> simp))

/-- C5 amended witness: a 3-segment uid maps in order with the default
defendant. -/
theorem uid_segments_in_order_witness :
    parse_uid_string (some ("2024mbpc96_None_1".toList)) =
      ⟨some ("2024mbpc96".toList), some ("None".toList), some ['1'], ['1']⟩ := by
  have h := (uid_segments_in_order ("2024mbpc96_None_1".toList) (by decide)).1 (by decide)
  rw [h]
  decide

/-! ## Date parser -/

/-- Components of a parsed date field. -/
structure DateComponents where
  offence_date : Option (List Char)
  offence_start_date : Option (List Char)
  offence_end_date : Option (List Char)
deriving DecidableEq, Repr

/-- `parse_date_string` (`sentencing_data_processing.py`): blank input gives
all-null components; an `&` in the trimmed input splits it at the first `&`
into trimmed start/end dates; otherwise the whole trimmed string is the
single offence date. -/
def parse_date_string (inp : Option (List Char)) : DateComponents :=
  match inp with
  | none => ⟨none, none, none⟩
  | some s0 =>
    if s0 = [] then ⟨none, none, none⟩
    else
      let s := pyStrip s0
      if containsChar s '&' then
        ⟨none, some (pyStrip (pySplitFirst '&' s).1),
          some (pyStrip ((pySplitFirst '&' s).2.getD []))⟩
      else ⟨some s, none, none⟩

/-- C6 counterexample: on the blank input `""` (which has no `&`) the claim
requires `offence_date` to carry the whole trimmed string `""`, but the
source returns all-null components for blank input. -/
theorem date_blank_counterexample :
    parse_date_string (some []) = ⟨none, none, none⟩ ∧
    containsChar (pyStrip []) '&' = false ∧
    (parse_date_string (some [])).offence_date ≠ some (pyStrip []) := by
  decide

/-- C6 amended: `offence_date` is never populated together with the
start/end pair; blank or missing input yields all-null components; for
non-blank input, a trimmed input containing `&` populates only the pair
(split at the first `&`, both parts trimmed) and otherwise only
`offence_date` carries the whole trimmed string. -/
theorem date_shape_exclusive (inp : Option (List Char)) :
    (¬ ((parse_date_string inp).offence_date ≠ none ∧
        ((parse_date_string inp).offence_start_date ≠ none ∨
         (parse_date_string inp).offence_end_date ≠ none))) ∧
    (∀ s0, inp = some s0 → s0 ≠ [] →
      (containsChar (pyStrip s0) '&' = true →
        parse_date_string inp =
          ⟨none, some (pyStrip (pySplitFirst '&' (pyStrip s0)).1),
            some (pyStrip ((pySplitFirst '&' (pyStrip s0)).2.getD []))⟩) ∧
      (containsChar (pyStrip s0) '&' = false →
        parse_date_string inp = ⟨some (pyStrip s0), none, none⟩)) ∧
    ((inp = none ∨ inp = some []) → parse_date_string inp = ⟨none, none, none⟩) := by
  refine ⟨?_, ?_, ?_⟩
  · rcases inp with _ | s0
    · simp [parse_date_string]
    · by_cases h0 : s0 = []
      · simp [parse_date_string, h0]
      · by_cases hc : containsChar (pyStrip s0) '&' = true
        · simp [parse_date_string, h0, hc]
        · simp [parse_date_string, h0, hc]
  · rintro s0 rfl h0
    constructor
    · intro hc
      simp [parse_date_string, h0, hc]
    · intro hc
      simp [parse_date_string, h0, hc]
  · rintro (rfl | rfl) <;> simp [parse_date_string]

/-- C6 amended witness: the spec's ranged-date example splits at the
first `&`. -/
theorem date_shape_exclusive_witness :
    parse_date_string (some ("1970-09-01&1981-07-01".toList)) =
      ⟨none, some ("1970-09-01".toList), some ("1981-07-01".toList)⟩ := by
  have h := ((date_shape_exclusive (some ("1970-09-01&1981-07-01".toList))).2.1
    ("1970-09-01&1981-07-01".toList) rfl (by decide)).1 (by decide)
  rw [h]
  decide

/-! ## Offence-code matcher -/

/-- `normalize_offence_code` (`sentencing_data_processing.py`): the original
code first, then one prefix-toggled variant — a bare code gains `cc_`, a
`cc`-prefixed code without the underscore gains it, a `cc_`-prefixed code
loses it. -/
def normalize_offence_code (offence_code : List Char) : List (List Char) :=
  if !(("cc".toList).isPrefixOf offence_code) then
    [offence_code, ("cc_".toList) ++ offence_code]
  else if ("cc".toList).isPrefixOf offence_code &&
      !(("cc_".toList).isPrefixOf offence_code) then
    [offence_code, ("cc_".toList) ++ offence_code.drop 2]
  else if ("cc_".toList).isPrefixOf offence_code then
    [offence_code, ("cc".toList) ++ offence_code.drop 3]
  else [offence_code]

/-- The source's variant loop: try each variation in order, skipping the one
equal to the already-tried code; the first table hit wins. -/
def firstVarMatch (code : List Char) (tbl : List (List Char × List Char)) :
    List (List Char) → Option (List Char × List Char)
  | [] => none
  | v :: vs =>
    if v = code then firstVarMatch code tbl vs
    else
      match List.find? (fun r => r.1 = v) tbl with
      | some r => some (v, r.2)
      | none => firstVarMatch code tbl vs

/-- `parse_offence_string` (`sentencing_data_processing.py`), with the
reference table as an explicit `(section, offence_name)` list: strip a
`_ycja` suffix, try the exact lookup, then the prefix-toggled variants;
append `" (YCJA)"` to a non-empty matched name when the suffix was present;
on a total miss return the (stripped) code with a null name. -/
def parse_offence_string (inp : Option (List Char))
    (tbl : List (List Char × List Char)) :
    Option (List Char) × Option (List Char) :=
  match inp with
  | none => (none, none)
  | some s0 =>
    if s0 = [] then (none, none)
    else
      let original := pyStrip s0
      let hasYcja := containsSub original ("_ycja".toList)
      let code := if hasYcja then replaceAll original ("_ycja".toList) [] else original
      match List.find? (fun r => r.1 = code) tbl with
      | some r =>
        (some code,
         some (if hasYcja && !r.2.isEmpty then r.2 ++ (" (YCJA)".toList) else r.2))
      | none =>
        match firstVarMatch code tbl (normalize_offence_code code) with
        | some (v, nm) =>
          (some v,
           some (if hasYcja && !nm.isEmpty then nm ++ (" (YCJA)".toList) else nm))
        | none => (some code, none)

/-- C3 (code bug): on a total miss the source returns the suffix-stripped
code, not the original.  `"cc_999_ycja"` against an empty table yields
`"cc_999"`, contradicting the repository's own comment ("Store original for
return value") and its test `test_offence_preserves_ycja_on_unmatched`,
which require the original `"cc_999_ycja"` with a null name. -/
theorem offence_miss_returns_stripped_code :
    parse_offence_string (some ("cc_999_ycja".toList)) [] =
      (some ("cc_999".toList), none) ∧
    ("cc_999".toList) ≠ ("cc_999_ycja".toList) := by
  exact ⟨by decide, by decide⟩

theorem firstVarMatch_mem {code : List Char} {tbl : List (List Char × List Char)}
    {vs : List (List Char)} {v nm : List Char}
    (h : firstVarMatch code tbl vs = some (v, nm)) :
    ∃ r, r ∈ tbl ∧ r.1 = v ∧ r.2 = nm := by
  induction vs with
  | nil => simp [firstVarMatch] at h
  | cons v0 vs' ih =>
    unfold firstVarMatch at h
    by_cases hv : v0 = code
    · rw [if_pos hv] at h
      exact ih h
    · rw [if_neg hv] at h
      rcases hf : List.find? (fun r => r.1 = v0) tbl with _ | r
      · rw [hf] at h
        exact ih h
      · rw [hf] at h
        have hr1 : r.1 = v0 := by
          have := List.find?_some hf
          simpa using this
        have hmem : r ∈ tbl := List.mem_of_find?_eq_some hf
        simp only [Option.some.injEq, Prod.mk.injEq] at h
        exact ⟨r, hmem, by rw [hr1, h.1], by rw [h.2]⟩

/-- C4: when the exact lookup misses, the prefix-toggled variants are tried
in order with the first match winning — with a table containing `cc_101`
(and no `101`/`cc101` rows), the codes `"101"`, `"cc101"` and `"cc_101"`
all resolve to that entry — and a code carrying the `_ycja` marker whose
lookup succeeds with a non-empty name gets the literal `" (YCJA)"` appended
to the matched table name. -/
theorem offence_variant_resolution_and_ycja :
    (∀ (tbl : List (List Char × List Char)) (e : List Char × List Char),
      List.find? (fun r => r.1 = ("101".toList)) tbl = none →
      List.find? (fun r => r.1 = ("cc101".toList)) tbl = none →
      List.find? (fun r => r.1 = ("cc_101".toList)) tbl = some e →
      parse_offence_string (some ("101".toList)) tbl
          = (some ("cc_101".toList), some e.2) ∧
      parse_offence_string (some ("cc101".toList)) tbl
          = (some ("cc_101".toList), some e.2) ∧
      parse_offence_string (some ("cc_101".toList)) tbl
          = (some ("cc_101".toList), some e.2)) ∧
    (∀ (code : List Char) (tbl : List (List Char × List Char)) (n : List Char),
      containsSub (pyStrip code) ("_ycja".toList) = true →
      (parse_offence_string (some code) tbl).2 = some n →
      n ≠ [] →
      ∃ r, r ∈ tbl ∧ r.2 ≠ [] ∧ n = r.2 ++ (" (YCJA)".toList)) := by
  constructor
  · intro tbl e h101 hcc101 hfound
    refine ⟨?_, ?_, ?_⟩
    · show parse_offence_string (some ("101".toList)) tbl = _
      simp only [parse_offence_string]
      rw [if_neg (show ¬ (("101".toList) = []) from by decide)]
      rw [show pyStrip ("101".toList) = ("101".toList) from by decide]
      rw [show containsSub ("101".toList) ("_ycja".toList) = false from by decide]
      simp only [Bool.false_eq_true, if_false, h101]
      rw [show normalize_offence_code ("101".toList) =
        [("101".toList), ("cc_101".toList)] from by decide]
      unfold firstVarMatch
      rw [if_pos rfl]
      unfold firstVarMatch
      rw [if_neg (by decide), hfound]
      simp
    · show parse_offence_string (some ("cc101".toList)) tbl = _
      simp only [parse_offence_string]
      rw [if_neg (show ¬ (("cc101".toList) = []) from by decide)]
      rw [show pyStrip ("cc101".toList) = ("cc101".toList) from by decide]
      rw [show containsSub ("cc101".toList) ("_ycja".toList) = false from by decide]
      simp only [Bool.false_eq_true, if_false, hcc101]
      rw [show normalize_offence_code ("cc101".toList) =
        [("cc101".toList), ("cc_101".toList)] from by decide]
      unfold firstVarMatch
      rw [if_pos rfl]
      unfold firstVarMatch
      rw [if_neg (by decide), hfound]
      simp
    · show parse_offence_string (some ("cc_101".toList)) tbl = _
      simp only [parse_offence_string]
      rw [if_neg (show ¬ (("cc_101".toList) = []) from by decide)]
      rw [show pyStrip ("cc_101".toList) = ("cc_101".toList) from by decide]
      rw [show containsSub ("cc_101".toList) ("_ycja".toList) = false from by decide]
      simp only [Bool.false_eq_true, if_false, hfound]
      simp
  · intro code tbl n hy hres hne
    by_cases h0 : code = []
    · rw [h0] at hres
      simp [parse_offence_string] at hres
    · simp only [parse_offence_string] at hres
      rw [if_neg h0, hy] at hres
      simp only [reduceIte] at hres
      rcases hf : List.find? (fun r =>
          r.1 = replaceAll (pyStrip code) ("_ycja".toList) []) tbl with _ | r
      · rw [hf] at hres
        rcases hv : firstVarMatch (replaceAll (pyStrip code) ("_ycja".toList) []) tbl
            (normalize_offence_code (replaceAll (pyStrip code) ("_ycja".toList) []))
            with _ | ⟨v, nm⟩
        · rw [hv] at hres
          simp at hres
        · rw [hv] at hres
          simp only [Option.some.injEq] at hres
          obtain ⟨r, hmem, -, hr2⟩ := firstVarMatch_mem hv
          by_cases hnm : nm.isEmpty
          · rw [show (true && !nm.isEmpty) = false from by rw [hnm]; rfl] at hres
            rw [if_neg (by simp)] at hres
            rw [← hres] at hne
            rw [List.isEmpty_iff] at hnm
            exact absurd hnm hne
          · rw [show (true && !nm.isEmpty) = true from by
                rw [Bool.true_and, Bool.not_eq_true']
                exact Bool.not_eq_true _ ▸ (by simpa using hnm)] at hres
            rw [if_pos rfl] at hres
            refine ⟨r, hmem, ?_, ?_⟩
            · rw [hr2]
              intro hnil
              rw [hnil] at hnm
              exact hnm rfl
            · rw [← hres, hr2]
      · rw [hf] at hres
        simp only [Option.some.injEq] at hres
        have hmem : r ∈ tbl := List.mem_of_find?_eq_some hf
        by_cases hnm : r.2.isEmpty
        · rw [show (true && !r.2.isEmpty) = false from by rw [hnm]; rfl] at hres
          rw [if_neg (by simp)] at hres
          rw [← hres] at hne
          rw [List.isEmpty_iff] at hnm
          exact absurd hnm hne
        · rw [show (true && !r.2.isEmpty) = true from by
              rw [Bool.true_and, Bool.not_eq_true']
              exact Bool.not_eq_true _ ▸ (by simpa using hnm)] at hres
          rw [if_pos rfl] at hres
          refine ⟨r, hmem, ?_, hres.symm⟩
          intro hnil
          rw [hnil] at hnm
          exact hnm rfl

/-- C4 witness: with the one-row table `cc_101 ↦ "Test offence"`, the codes
`101` and `cc101` resolve to that entry, and `cc_101_ycja` resolves with
`" (YCJA)"` appended. -/
theorem offence_variant_resolution_and_ycja_witness :
    parse_offence_string (some ("101".toList))
        [(("cc_101".toList), ("Test offence".toList))]
      = (some ("cc_101".toList), some ("Test offence".toList)) ∧
    parse_offence_string (some ("cc101".toList))
        [(("cc_101".toList), ("Test offence".toList))]
      = (some ("cc_101".toList), some ("Test offence".toList)) ∧
    (∃ r, r ∈ [(("cc_101".toList), ("Test offence".toList))] ∧ r.2 ≠ [] ∧
      ("Test offence (YCJA)".toList) = r.2 ++ (" (YCJA)".toList)) := by
  refine ⟨?_, ?_, ?_⟩
  · exact (offence_variant_resolution_and_ycja.1
      [(("cc_101".toList), ("Test offence".toList))]
      (("cc_101".toList), ("Test offence".toList))
      (by decide) (by decide) (by decide)).1
  · exact (offence_variant_resolution_and_ycja.1
      [(("cc_101".toList), ("Test offence".toList))]
      (("cc_101".toList), ("Test offence".toList))
      (by decide) (by decide) (by decide)).2.1
  · exact offence_variant_resolution_and_ycja.2 ("cc_101_ycja".toList)
      [(("cc_101".toList), ("Test offence".toList))]
      ("Test offence (YCJA)".toList) (by decide) (by decide) (by decide)

/-! ## Mode, conditions, fine and appeal parsers -/

/-- `parse_mode_string` (`sentencing_data_processing.py`): split the trimmed
string at the first hyphen; no hyphen puts the whole string in the first
slot. -/
def parse_mode_string (inp : Option (List Char)) :
    Option (List Char) × Option (List Char) :=
  match inp with
  | none => (none, none)
  | some s0 =>
    if s0 = [] then (none, none)
    else
      let s := pyStrip s0
      if containsChar s '-' then
        (some (pySplitFirst '-' s).1, some ((pySplitFirst '-' s).2.getD []))
      else (some s, none)

/-- The closed set of condition types recognised by the conditions regex. -/
inductive CondType | probation | discharge | ltso | ircs | parole
deriving DecidableEq, Repr

/-- The condition-type alternation, case-insensitive and anchored to the
whole word. -/
def typeOfWord (w : List Char) : Option CondType :=
  if pyLower w = ("probation".toList) then some .probation
  else if pyLower w = ("discharge".toList) then some .discharge
  else if pyLower w = ("ltso".toList) then some .ltso
  else if pyLower w = ("ircs".toList) then some .ircs
  else if pyLower w = ("parole".toList) then some .parole
  else none

/-- An anchored attempt of `(\d+(?:\.\d+)?)\s*([ymd])` at the start of
`s` (the regex fails unless `s` starts with a digit). -/
def matchNumUnitAt (s : List Char) : Option (Dec × Char × List Char) :=
  match s with
  | c :: _ => if c.isDigit then matchNumUnit s else none
  | [] => none

/-- Components of a parsed conditions field. -/
structure CondComponents where
  time : Option Dec
  unit : Option TimeUnit
  type : Option CondType
deriving DecidableEq, Repr

/-- Format 1 of the conditions grammar: `time-unit-type`, anchored. -/
def condFormat1 (s : List Char) : Option (Dec × TimeUnit × CondType) :=
  match matchNumUnitAt s with
  | some (q, u, r) =>
    match r with
    | '-' :: rest =>
      match typeOfWord rest with
      | some ty => some (q, unitOfChar u, ty)
      | none => none
    | _ => none
  | none => none

/-- Format 2 of the conditions grammar: `type-time-unit`, anchored (no type
word contains a hyphen, so the first hyphen separates the parts). -/
def condFormat2 (s : List Char) : Option (CondType × Dec × TimeUnit) :=
  match pySplitFirst '-' s with
  | (w, some rest) =>
    match typeOfWord w with
    | some ty =>
      match matchNumUnitAt rest with
      | some (q, u, []) => some (ty, q, unitOfChar u)
      | _ => none
    | none => none
  | (_, none) => none

/-- Format 3 of the conditions grammar: `time-unit` alone, anchored. -/
def condFormat3 (s : List Char) : Option (Dec × TimeUnit) :=
  match matchNumUnitAt s with
  | some (q, u, []) => some (q, unitOfChar u)
  | _ => none

/-- `parse_conditions_string` (`sentencing_data_processing.py`): try the
three anchored shapes in order; if none matches, all fields are null. -/
def parse_conditions_string (inp : Option (List Char)) : CondComponents :=
  match inp with
  | none => ⟨none, none, none⟩
  | some s0 =>
    if s0 = [] then ⟨none, none, none⟩
    else
      let s := pyStrip s0
      match condFormat1 s with
      | some (q, u, ty) => ⟨some q, some u, some ty⟩
      | none =>
        match condFormat2 s with
        | some (ty, q, u) => ⟨some q, some u, some ty⟩
        | none =>
          match condFormat3 s with
          | some (q, u) => ⟨some q, some u, none⟩
          | none => ⟨none, none, none⟩

/-- A signed exact decimal: the value Python's `float(...)` approximates for
a plain decimal literal. -/
structure SDec where
  neg : Bool
  mag : Dec
deriving DecidableEq, Repr

/-- Python `float(string)` on the plain decimal-literal subset (optional
sign, digits with an optional fraction, surrounding whitespace); exponent,
`inf` and `nan` forms are outside the model. -/
def pyFloat (s : List Char) : Option SDec :=
  let t := pyStrip s
  let signRest : Bool × List Char :=
    match t with
    | '-' :: r => (true, r)
    | '+' :: r => (false, r)
    | r => (false, r)
  let ds := signRest.2.takeWhile Char.isDigit
  let r1 := signRest.2.dropWhile Char.isDigit
  match r1 with
  | [] => if ds.isEmpty then none else some ⟨signRest.1, ⟨digitsToNat ds, 0⟩⟩
  | '.' :: r2 =>
    let fs := r2.takeWhile Char.isDigit
    let r3 := r2.dropWhile Char.isDigit
    if r3.isEmpty && !(ds.isEmpty && fs.isEmpty) then
      some ⟨signRest.1, qtyOf ds fs⟩
    else none
  | _ => none

/-- Round a non-negative decimal to hundredths, half to even (the rounding
`f"{x:.2f}"` applies). -/
def roundHalfEven2 (m : Dec) : Nat :=
  let p := 10 ^ m.exp
  let a := m.num * 100
  let q := a / p
  let r := a % p
  if 2 * r < p then q
  else if p < 2 * r then q + 1
  else if q % 2 = 0 then q else q + 1

/-- Two-digit rendering of a fraction-of-hundred. -/
def twoDigits (fp : Nat) : List Char :=
  if fp < 10 then '0' :: Nat.toDigits 10 fp else Nat.toDigits 10 fp

/-- `f"{v:.2f}"` on an exact signed decimal. -/
def pyFormat2 (v : SDec) : List Char :=
  let h := roundHalfEven2 v.mag
  (if v.neg then ['-'] else []) ++ Nat.toDigits 10 (h / 100) ++ '.' :: twoDigits (h % 100)

/-- `parse_fine_string` (`sentencing_data_processing.py`): strip `$` and `,`
characters, parse the number, and format it as `$` plus a two-decimal
rendering; a failed parse returns null instead of raising. -/
def parse_fine_string (inp : Option (List Char)) : Option (List Char) :=
  match inp with
  | none => none
  | some s0 =>
    if s0 = [] then none
    else
      let s := pyStrip (replaceAll (replaceAll (pyStrip s0) ['$'] []) [','] [])
      match pyFloat s with
      | some v => some ('$' :: pyFormat2 v)
      | none => none

/-- Components of a parsed appeal field. -/
structure AppealComponents where
  court : Option (List Char)
  result : Option (List Char)
deriving DecidableEq, Repr

/-- `parse_appeal_string` (`sentencing_data_processing.py`): split the
trimmed string at the first underscore into court and result, both trimmed;
with no underscore the whole string is the court and the result is null. -/
def parse_appeal_string (inp : Option (List Char)) : AppealComponents :=
  match inp with
  | none => ⟨none, none⟩
  | some s0 =>
    if s0 = [] then ⟨none, none⟩
    else
      let s := pyStrip s0
      match pySplitFirst '_' s with
      | (p, some rest) => ⟨some (pyStrip p), some (pyStrip rest)⟩
      | (p, none) => ⟨some (pyStrip p), none⟩

/-- C7: every field micro-parser is total over its embedding (all are plain
Lean functions, with the fallible numeric conversion modelled as an
`Option`) and returns a well-formed component value on every input: uid
components with all-null identification only for blank input, offence names
only alongside a code, date shapes mutually exclusive and paired, a null
duration total only for the indeterminate sentinel, mode/appeal seconds
only alongside firsts, conditions time and unit populated together, and
fines always `$`-prefixed. -/
theorem micro_parsers_total (u o d j m c f a : Option (List Char))
    (tbl : List (List Char × List Char)) :
    ((parse_uid_string u).case_id = none →
      (parse_uid_string u).docket = none ∧ (parse_uid_string u).count = none ∧
      (parse_uid_string u).defendant = ['1']) ∧
    ((parse_offence_string o tbl).2 ≠ none → (parse_offence_string o tbl).1 ≠ none) ∧
    (¬ ((parse_date_string d).offence_date ≠ none ∧
        ((parse_date_string d).offence_start_date ≠ none ∨
         (parse_date_string d).offence_end_date ≠ none))) ∧
    ((parse_date_string d).offence_start_date = none ↔
      (parse_date_string d).offence_end_date = none) ∧
    (calculate_total_days (parse_jail_string j) = none ↔
      parse_jail_string j = .indeterminate) ∧
    ((parse_mode_string m).2 ≠ none → (parse_mode_string m).1 ≠ none) ∧
    ((parse_conditions_string c).time = none ↔
      (parse_conditions_string c).unit = none) ∧
    (∀ v, parse_fine_string f = some v → v.head? = some '$') ∧
    ((parse_appeal_string a).result ≠ none → (parse_appeal_string a).court ≠ none) := by
  refine ⟨?_, ?_, ?_, ?_, ?_, ?_, ?_, ?_, ?_⟩
  · -- uid
    rcases u with _ | s0
    · simp [parse_uid_string]
    · by_cases h0 : s0 = []
      · simp [parse_uid_string, h0]
      · simp only [parse_uid_string, if_neg h0]
        split
        · simp
        · simp
        · simp
        · simp
          intro hp
          simp [hp]
  · -- offence
    rcases o with _ | s0
    · simp [parse_offence_string]
    · by_cases h0 : s0 = []
      · simp [parse_offence_string, h0]
      · simp only [parse_offence_string, if_neg h0]
        split
        · simp
        · split <;> simp
  · -- date exclusivity
    rcases d with _ | s0
    · simp [parse_date_string]
    · by_cases h0 : s0 = []
      · simp [parse_date_string, h0]
      · by_cases hc : containsChar (pyStrip s0) '&' = true <;>
          simp [parse_date_string, h0, hc]
  · -- date pairing
    rcases d with _ | s0
    · simp [parse_date_string]
    · by_cases h0 : s0 = []
      · simp [parse_date_string, h0]
      · by_cases hc : containsChar (pyStrip s0) '&' = true <;>
          simp [parse_date_string, h0, hc]
  · -- jail
    cases hj : parse_jail_string j with
    | indeterminate => simp [calculate_total_days]
    | components rows => rcases rows with _ | ⟨r, rest⟩ <;> simp [calculate_total_days]
  · -- mode
    rcases m with _ | s0
    · simp [parse_mode_string]
    · by_cases h0 : s0 = []
      · simp [parse_mode_string, h0]
      · by_cases hc : containsChar (pyStrip s0) '-' = true <;>
          simp [parse_mode_string, h0, hc]
  · -- conditions
    rcases c with _ | s0
    · simp [parse_conditions_string]
    · by_cases h0 : s0 = []
      · simp [parse_conditions_string, h0]
      · simp only [parse_conditions_string, if_neg h0]
        split
        · simp
        · split
          · simp
          · split <;> simp
  · -- fine
    intro v hv
    rcases f with _ | s0
    · simp [parse_fine_string] at hv
    · by_cases h0 : s0 = []
      · simp [parse_fine_string, h0] at hv
      · simp only [parse_fine_string, if_neg h0] at hv
        split at hv
        · simp only [Option.some.injEq] at hv
          rw [← hv]
          rfl
        · simp at hv
  · -- appeal
    rcases a with _ | s0
    · simp [parse_appeal_string]
    · by_cases h0 : s0 = []
      · simp [parse_appeal_string, h0]
      · simp only [parse_appeal_string, if_neg h0]
        split <;> simp

/-- C7 witness: the well-formedness consequents at the spec's example row
values, with every antecedent discharged concretely. -/
theorem micro_parsers_total_witness :
    (parse_offence_string (some ("cc_101".toList))
        [(("cc_101".toList), ("Test offence".toList))]).1 ≠ none ∧
    (parse_mode_string (some ("jail-consecutive".toList))).1 ≠ none ∧
    ((parse_fine_string (some ("$1,000".toList))).getD []).head? = some '$' ∧
    (parse_appeal_string (some ("2024skca79_upheld".toList))).court ≠ none := by
  have h := micro_parsers_total (some ("2024mbpc96_None_1_a".toList))
    (some ("cc_101".toList)) (some ("2024-12-18".toList)) (some ("1y&6m&3d".toList))
    (some ("jail-consecutive".toList)) (some ("18m-probation".toList))
    (some ("$1,000".toList)) (some ("2024skca79_upheld".toList))
    [(("cc_101".toList), ("Test offence".toList))]
  refine ⟨h.2.1 (by decide), h.2.2.2.2.2.1 (by decide), ?_, h.2.2.2.2.2.2.2.2 (by decide)⟩
  have hf := h.2.2.2.2.2.2.2.1
    ((parse_fine_string (some ("$1,000".toList))).getD []) (by decide)
  exact hf

/-! ## Citation extraction -/

/-- Python `hay.find(needle, start)`: leftmost occurrence at or after
`start`, as an absolute index. -/
def pyFindFrom (hay needle : List Char) (start : Nat) : Option Nat :=
  (pyFind (hay.drop start) needle).map (· + start)

/-- `extract_citation` (`case_data_processing.py`): the substring between
the fixed start marker `"## "` and the first `" * "` after it, trimmed;
an absent marker yields the empty citation. -/
def extract_citation (header : List Char) : List Char :=
  match pyFind header ("## ".toList) with
  | none => []
  | some sp =>
    match pyFindFrom header (" * ".toList) (sp + 3) with
    | none => []
    | some ep => pyStrip (((header.drop (sp + 3)).take (ep - (sp + 3))))

theorem pyFind_cons (c : Char) (rest needle : List Char) :
    pyFind (c :: rest) needle =
      if needle.isPrefixOf (c :: rest) then some 0
      else (pyFind rest needle).map (· + 1) := rfl

theorem pyFind_hash_marker {pre tail : List Char} (h : ∀ x ∈ pre, x ≠ '#') :
    pyFind (pre ++ '#' :: '#' :: ' ' :: tail) ("## ".toList) = some pre.length := by
  induction pre with
  | nil =>
    have hp : ("## ".toList).isPrefixOf ('#' :: '#' :: ' ' :: tail) = true := by
      show (('#' : Char) == '#' && (('#' : Char) == '#' && ((' ' : Char) == ' ' &&
        List.isPrefixOf [] tail))) = true
      simp [List.isPrefixOf]
    rw [List.nil_append, pyFind_cons, if_pos hp]
    rfl
  | cons c pre' ih =>
    have hc : c ≠ '#' := h c (List.mem_cons_self _ _)
    have hpre : (("## ".toList)).isPrefixOf
        (c :: (pre' ++ '#' :: '#' :: ' ' :: tail)) = false := by
      show (('#' :: '#' :: ' ' :: []).isPrefixOf _) = false
      show ((('#' : Char) == c) && _) = false
      simp [Ne.symm hc]
    rw [List.cons_append, pyFind_cons]
    simp only [hpre, Bool.false_eq_true, if_false]
    rw [ih (fun x hx => h x (List.mem_cons_of_mem _ hx))]
    simp

theorem pyFind_star_marker {c rest : List Char} (h : ∀ x ∈ c, x ≠ '*') :
    pyFind (c ++ ' ' :: '*' :: ' ' :: rest) (" * ".toList) = some c.length := by
  induction c with
  | nil =>
    have hp : (" * ".toList).isPrefixOf (' ' :: '*' :: ' ' :: rest) = true := by
      show ((' ' : Char) == ' ' && (('*' : Char) == '*' && ((' ' : Char) == ' ' &&
        List.isPrefixOf [] rest))) = true
      simp [List.isPrefixOf]
    rw [List.nil_append, pyFind_cons, if_pos hp]
    rfl
  | cons x c' ih =>
    have hx : x ≠ '*' := h x (List.mem_cons_self _ _)
    have hpre : ((" * ".toList)).isPrefixOf
        (x :: (c' ++ ' ' :: '*' :: ' ' :: rest)) = false := by
      show ((' ' :: '*' :: ' ' :: []).isPrefixOf _) = false
      cases c' with
      | nil =>
        show (((' ' : Char) == x) && ((('*' : Char) == ' ') && _)) = false
        simp
      | cons y c'' =>
        have hy : y ≠ '*' := h y (List.mem_cons_of_mem _ (List.mem_cons_self _ _))
        show (((' ' : Char) == x) && ((('*' : Char) == y) && _)) = false
        simp [Ne.symm hy]
    rw [List.cons_append, pyFind_cons]
    simp only [hpre, Bool.false_eq_true, if_false]
    rw [ih (fun z hz => h z (List.mem_cons_of_mem _ hz))]
    simp

/-- C9: `extract_citation` returns the trimmed substring of the header
between the start marker `"## "` and the first `" * "` following it, and
returns the empty citation — rather than raising — when either marker is
absent. -/
theorem extract_citation_markers :
    (∀ header, pyFind header ("## ".toList) = none → extract_citation header = []) ∧
    (∀ header sp, pyFind header ("## ".toList) = some sp →
      pyFindFrom header (" * ".toList) (sp + 3) = none →
      extract_citation header = []) ∧
    (∀ pre c rest, (∀ x ∈ pre, x ≠ '#') → (∀ x ∈ c, x ≠ '*') →
      extract_citation (pre ++ '#' :: '#' :: ' ' :: (c ++ ' ' :: '*' :: ' ' :: rest))
        = pyStrip c) := by
  refine ⟨?_, ?_, ?_⟩
  · intro header hno
    unfold extract_citation
    rw [hno]
  · intro header sp hsp hno
    unfold extract_citation
    rw [hsp]
    dsimp only
    rw [hno]
  · intro pre c rest hpre hc
    have hfind : pyFind (pre ++ '#' :: '#' :: ' ' :: (c ++ ' ' :: '*' :: ' ' :: rest))
        ("## ".toList) = some pre.length := pyFind_hash_marker hpre
    have hdrop : (pre ++ '#' :: '#' :: ' ' :: (c ++ ' ' :: '*' :: ' ' :: rest)).drop
        (pre.length + 3) = c ++ ' ' :: '*' :: ' ' :: rest := by
      rw [show pre ++ '#' :: '#' :: ' ' :: (c ++ ' ' :: '*' :: ' ' :: rest)
          = (pre ++ ['#', '#', ' ']) ++ (c ++ ' ' :: '*' :: ' ' :: rest) by simp]
      rw [show pre.length + 3 = (pre ++ ['#', '#', ' ']).length by simp]
      exact List.drop_left _ _
    have hfrom : pyFindFrom (pre ++ '#' :: '#' :: ' ' :: (c ++ ' ' :: '*' :: ' ' :: rest))
        (" * ".toList) (pre.length + 3) = some (c.length + (pre.length + 3)) := by
      unfold pyFindFrom
      rw [hdrop, pyFind_star_marker hc]
      rfl
    unfold extract_citation
    rw [hfind]
    dsimp only
    rw [hfrom]
    dsimp only
    rw [hdrop]
    rw [show c.length + (pre.length + 3) - (pre.length + 3) = c.length by omega]
    rw [List.take_left]

/-- C9 witness: a header with both markers yields the trimmed text between
them; a header with no start marker yields the empty citation. -/
theorem extract_citation_markers_witness :
    extract_citation ("canlii## R v Smith, 2024 ABC 1 * 2024-01-01".toList)
      = ("R v Smith, 2024 ABC 1".toList) ∧
    extract_citation ("no marker here".toList) = [] := by
  constructor
  · have h := extract_citation_markers.2.2 ("canlii".toList)
      ("R v Smith, 2024 ABC 1".toList) ("2024-01-01".toList)
      (by decide) (by decide)
    have heq : ("canlii".toList) ++ '#' :: '#' :: ' ' ::
        (("R v Smith, 2024 ABC 1".toList) ++ ' ' :: '*' :: ' ' :: ("2024-01-01".toList))
        = ("canlii## R v Smith, 2024 ABC 1 * 2024-01-01".toList) := by decide
    rw [heq] at h
    rw [h]
    decide
  · exact extract_citation_markers.1 ("no marker here".toList) (by decide)

/-! ## Text cleaner

The four regex passes of `clean_text_section` (identical in
`case_data_processing.py` and `backend/text_processing.py`), embedded as
scanners over the original string, followed by `str.strip()`. -/

/-- Do the next two characters equal the given pair? -/
def next2is (a b : Char) : List Char → Bool
  | x :: y :: _ => x = a && y = b
  | _ => false

/-- Is this (possibly absent) character an underscore? -/
def isUS (a : Option Char) : Bool := a = some '_'

/-- `replace_newlines`' per-position action: `re.sub` scans the original
string, so the two-character lookbehind (`pv2`, `pv1`) and lookahead both
refer to original characters. -/
def p1Aux (pv2 pv1 : Option Char) : List Char → List Char
  | [] => []
  | c :: rest =>
    (if c = '\n' && !(isUS pv2 && isUS pv1) && !(next2is '_' '_' rest)
     then ' ' else c) :: p1Aux pv1 (some c) rest

/-- `replace_newlines` (`case_data_processing.py`):
`re.sub(r"(?<!__)\n(?!__)", " ", text)`. -/
def replace_newlines (s : List Char) : List Char := p1Aux none none s

/-- `re.sub(r"\n\s+", "\n", text)`, fuelled: after a newline, the maximal
following whitespace run is dropped and scanning resumes after it. -/
def p2F : Nat → List Char → List Char
  | 0, s => s
  | _ + 1, [] => []
  | fuel + 1, c :: rest =>
    if c = '\n' then c :: p2F fuel (rest.dropWhile isPySpace)
    else c :: p2F fuel rest

/-- `remove_newline_prefix_space` (`case_data_processing.py`). -/
def remove_newline_prefix_space (s : List Char) : List Char := p2F s.length s

/-- `re.sub(r"  +", " ", text)`, fuelled: a run of two or more spaces is
replaced by one space. -/
def p3F : Nat → List Char → List Char
  | 0, s => s
  | _ + 1, [] => []
  | fuel + 1, c :: rest =>
    if c = ' ' then
      match rest with
      | c2 :: _ =>
        if c2 = ' ' then ' ' :: p3F fuel (rest.dropWhile (· = ' '))
        else c :: p3F fuel rest
      | [] => c :: p3F fuel rest
    else c :: p3F fuel rest

/-- The `re.sub(r"  +", " ", ...)` pass of `clean_text_section`. -/
def collapseSpaces (s : List Char) : List Char := p3F s.length s

/-- The suffix of a list after its last newline (the whole list when it has
none). -/
def afterLastNl : List Char → List Char
  | [] => []
  | c :: rest =>
    if rest.contains '\n' then afterLastNl rest
    else if c = '\n' then rest
    else c :: rest

/-- `re.sub(r"\n\s*\n", "\n", text)`, fuelled: a greedy match runs from a
newline through the last newline inside the following whitespace run. -/
def p4F : Nat → List Char → List Char
  | 0, s => s
  | _ + 1, [] => []
  | fuel + 1, c :: rest =>
    if c = '\n' then
      if (rest.takeWhile isPySpace).contains '\n' then
        '\n' :: p4F fuel (afterLastNl (rest.takeWhile isPySpace) ++ rest.dropWhile isPySpace)
      else c :: p4F fuel rest
    else c :: p4F fuel rest

/-- The `re.sub(r"\n\s*\n", "\n", ...)` pass of `clean_text_section`. -/
def collapseBlankLines (s : List Char) : List Char := p4F s.length s

/-- `clean_text_section` (`case_data_processing.py` and
`backend/text_processing.py`): the four regex passes in source order,
then `str.strip()`. -/
def clean_text_section (s : List Char) : List Char :=
  pyStrip (collapseBlankLines (collapseSpaces
    (remove_newline_prefix_space (replace_newlines s))))

/-! ### Normal-form invariants of cleaned text -/

/-- Every newline is protected: preceded or followed by `__` (the
lookbehind is carried as scanning state). -/
def inv1Aux (pv2 pv1 : Option Char) : List Char → Bool
  | [] => true
  | c :: rest =>
    (if c = '\n' then (isUS pv2 && isUS pv1) || next2is '_' '_' rest else true)
      && inv1Aux pv1 (some c) rest

/-- Top-level newline-protection invariant. -/
def inv1 (s : List Char) : Bool := inv1Aux none none s

/-- No newline is immediately followed by whitespace. -/
def inv2 : List Char → Bool
  | [] => true
  | c :: rest =>
    (if c = '\n' then (match rest with | x :: _ => !isPySpace x | [] => true) else true)
      && inv2 rest

/-- No two consecutive spaces. -/
def inv3 : List Char → Bool
  | [] => true
  | c :: rest =>
    (if c = ' ' then (match rest with | x :: _ => !(x = ' ') | [] => true) else true)
      && inv3 rest

/-- Neither end carries whitespace. -/
def noEdgeSpace (s : List Char) : Bool :=
  (match s.head? with | some c => !isPySpace c | none => true) &&
  (match s.getLast? with | some c => !isPySpace c | none => true)

/-! ### Scanner head lemmas -/

theorem length_dropWhile_le (p : Char → Bool) (l : List Char) :
    (l.dropWhile p).length ≤ l.length := by
  induction l with
  | nil => simp
  | cons c rest ih =>
    rw [List.dropWhile_cons]
    split
    · exact Nat.le_trans ih (Nat.le_succ _)
    · simp

theorem head?_p2F (fuel : Nat) (l : List Char) : (p2F fuel l).head? = l.head? := by
  cases fuel with
  | zero => rfl
  | succ f =>
    cases l with
    | nil => rfl
    | cons c rest =>
      unfold p2F
      split <;> rfl

theorem head?_p3F (fuel : Nat) (l : List Char) : (p3F fuel l).head? = l.head? := by
  cases fuel with
  | zero => rfl
  | succ f =>
    cases l with
    | nil => rfl
    | cons c rest =>
      unfold p3F
      by_cases hc : c = ' '
      · rw [if_pos hc]
        cases rest with
        | nil => rfl
        | cons c2 r =>
          dsimp only
          split
          · rw [hc]; rfl
          · rfl
      · rw [if_neg hc]
        rfl

/-- Whether the list starts with an underscore. -/
def headIsUS : List Char → Bool
  | y :: _ => y = '_'
  | [] => false

theorem headIsUS_eq_head? (l : List Char) :
    headIsUS l = (match l.head? with | some y => decide (y = '_') | none => false) := by
  cases l <;> rfl

theorem next2is_cons_ne {c : Char} (t : List Char) (hc : c ≠ '_') :
    next2is '_' '_' (c :: t) = false := by
  cases t with
  | nil => rfl
  | cons y t' => simp [next2is, hc]

theorem next2is_cons_us (t : List Char) :
    next2is '_' '_' ('_' :: t) = headIsUS t := by
  cases t with
  | nil => rfl
  | cons y t' => simp [next2is, headIsUS]

theorem next2_p2 (fuel : Nat) (l : List Char) :
    next2is '_' '_' (p2F fuel l) = next2is '_' '_' l := by
  cases fuel with
  | zero => rfl
  | succ f =>
    cases l with
    | nil => rfl
    | cons c rest =>
      by_cases hc : c = '_'
      · subst hc
        have hne : ('_' : Char) ≠ '\n' := by decide
        unfold p2F
        rw [if_neg hne, next2is_cons_us, next2is_cons_us,
          headIsUS_eq_head?, headIsUS_eq_head?, head?_p2F]
      · unfold p2F
        split <;>
          rw [next2is_cons_ne _ hc, next2is_cons_ne _ hc]

theorem next2_p3 (fuel : Nat) (l : List Char) :
    next2is '_' '_' (p3F fuel l) = next2is '_' '_' l := by
  cases fuel with
  | zero => rfl
  | succ f =>
    cases l with
    | nil => rfl
    | cons c rest =>
      by_cases hc : c = '_'
      · subst hc
        have hne : ('_' : Char) ≠ ' ' := by decide
        unfold p3F
        rw [if_neg hne, next2is_cons_us, next2is_cons_us,
          headIsUS_eq_head?, headIsUS_eq_head?, head?_p3F]
      · unfold p3F
        by_cases hsp : c = ' '
        · rw [if_pos hsp]
          cases rest with
          | nil => rw [next2is_cons_ne _ hc, next2is_cons_ne _ hc]
          | cons c2 r =>
            dsimp only
            have hpr : (' ' : Char) ≠ '_' := by decide
            split
            · rw [hsp, next2is_cons_ne _ hpr, next2is_cons_ne _ hpr]
            · rw [next2is_cons_ne _ hc, next2is_cons_ne _ hc]
        · rw [if_neg hsp]
          rw [next2is_cons_ne _ hc, next2is_cons_ne _ hc]

/-! ### Invariant congruence and suffix lemmas -/

theorem inv1Aux_congr {a b a' b' : Option Char} (ha : isUS a = isUS a')
    (hb : isUS b = isUS b') (s : List Char) :
    inv1Aux a b s = inv1Aux a' b' s := by
  induction s generalizing a b a' b' with
  | nil => rfl
  | cons c rest ih =>
    unfold inv1Aux
    rw [ha, hb, ih hb rfl]

theorem inv2_tail {c : Char} {rest : List Char} (h : inv2 (c :: rest) = true) :
    inv2 rest = true := by
  unfold inv2 at h
  rw [Bool.and_eq_true] at h
  exact h.2

theorem inv3_tail {c : Char} {rest : List Char} (h : inv3 (c :: rest) = true) :
    inv3 rest = true := by
  unfold inv3 at h
  rw [Bool.and_eq_true] at h
  exact h.2

theorem inv2_dropWhile (p : Char → Bool) {s : List Char} (h : inv2 s = true) :
    inv2 (s.dropWhile p) = true := by
  induction s with
  | nil => simpa using h
  | cons c rest ih =>
    rw [List.dropWhile_cons]
    split
    · exact ih (inv2_tail h)
    · exact h

theorem inv3_dropWhile (p : Char → Bool) {s : List Char} (h : inv3 s = true) :
    inv3 (s.dropWhile p) = true := by
  induction s with
  | nil => simpa using h
  | cons c rest ih =>
    rw [List.dropWhile_cons]
    split
    · exact ih (inv3_tail h)
    · exact h

theorem isUS_of_nonUS {c : Char} (hc : c ≠ '_') : isUS (some c) = false := by
  simp [isUS, hc]

theorem space_ne_us {c : Char} (hc : isPySpace c = true) : c ≠ '_' := by
  rcases isPySpace_cases hc with rfl | rfl | rfl | rfl | rfl | rfl <;> decide

theorem space_window {c : Char} (hc : isPySpace c = true) : c ≠ '_' ∧ isUS (some c) = false :=
  ⟨space_ne_us hc, isUS_of_nonUS (space_ne_us hc)⟩

/-- Dropping a run of non-underscore-making characters preserves the
newline-protection invariant, for any replacement scan states that are not
underscores. -/
theorem inv1_dropWhile_nu (p : Char → Bool) (hp : ∀ c, p c = true → c ≠ '_')
    {s : List Char} {a b : Option Char} (h : inv1Aux a b s = true)
    (hb : isUS b = false) (a2 b2 : Option Char) (hb2 : isUS b2 = false) :
    inv1Aux a2 b2 (s.dropWhile p) = true := by
  induction s generalizing a b a2 b2 with
  | nil => simpa using h
  | cons c rest ih =>
    unfold inv1Aux at h
    rw [Bool.and_eq_true] at h
    obtain ⟨hjust, hrest⟩ := h
    rw [List.dropWhile_cons]
    split
    · rename_i hpc
      exact ih hrest (isUS_of_nonUS (hp c hpc)) a2 b2 hb2
    · rename_i hpc
      unfold inv1Aux
      rw [Bool.and_eq_true]
      constructor
      · by_cases hcn : c = '\n'
        · rw [if_pos hcn] at hjust ⊢
          rw [Bool.or_eq_true] at hjust
          rcases hjust with hl | hr
          · rw [Bool.and_eq_true] at hl
            rw [hb] at hl
            exact absurd hl.2 (by simp)
          · rw [hr]
            simp
        · rw [if_neg hcn]
      · rw [inv1Aux_congr (hb2.trans hb.symm) rfl rest]
        exact hrest

/-! ### Pass 1 establishes and respects newline protection -/

theorem p1Char_us (pv2 pv1 : Option Char) (c : Char) (rest : List Char) :
    isUS (some (if c = '\n' && !(isUS pv2 && isUS pv1) && !(next2is '_' '_' rest)
      then ' ' else c)) = isUS (some c) := by
  split
  · rename_i hcond
    simp only [Bool.and_eq_true, decide_eq_true_eq] at hcond
    rw [hcond.1.1]
    rfl
  · rfl

theorem p1CondChar {cond : Bool} {c : Char} (h : cond = true → c = '\n') :
    decide ((if cond = true then ' ' else c) = '_') = decide (c = '_') := by
  cases cond with
  | false => rfl
  | true => rw [h rfl]; rfl

theorem next2_p1 (a b : Option Char) (l : List Char) :
    next2is '_' '_' (p1Aux a b l) = next2is '_' '_' l := by
  cases l with
  | nil => rfl
  | cons x t =>
    cases t with
    | nil => rfl
    | cons y r =>
      show next2is '_' '_' (_ :: _ :: p1Aux (some x) (some y) r)
          = next2is '_' '_' (x :: y :: r)
      simp only [next2is]
      rw [p1CondChar (c := x) (fun hq => by
            simp only [Bool.and_eq_true, decide_eq_true_eq] at hq
            exact hq.1.1),
          p1CondChar (c := y) (fun hq => by
            simp only [Bool.and_eq_true, decide_eq_true_eq] at hq
            exact hq.1.1)]

theorem inv1_p1Aux {pv2 pv1 pv2' pv1' : Option Char}
    (h2 : isUS pv2 = isUS pv2') (h1 : isUS pv1 = isUS pv1') (s : List Char) :
    inv1Aux pv2' pv1' (p1Aux pv2 pv1 s) = true := by
  induction s generalizing pv2 pv1 pv2' pv1' with
  | nil => rfl
  | cons c rest ih =>
    unfold p1Aux inv1Aux
    rw [Bool.and_eq_true]
    refine ⟨?_, ih h1 (p1Char_us pv2 pv1 c rest).symm⟩
    by_cases hcond : (c = '\n' && !(isUS pv2 && isUS pv1)
        && !(next2is '_' '_' rest)) = true
    · rw [if_pos hcond, if_neg (show ¬ (' ' = '\n') from by decide)]
    · rw [if_neg hcond]
      by_cases hcn : c = '\n'
      · rw [if_pos hcn]
        have hAB : ((isUS pv2 && isUS pv1) || next2is '_' '_' rest) = true := by
          cases hA : (isUS pv2 && isUS pv1) with
          | true => rfl
          | false =>
            cases hB : next2is '_' '_' rest with
            | true => simp
            | false =>
              exact absurd (by simp [hcn, hA, hB]) hcond
        rw [Bool.or_eq_true] at hAB
        rw [Bool.or_eq_true, next2_p1]
        rcases hAB with hA | hB
        · left
          rw [← h2, ← h1]
          exact hA
        · right
          exact hB
      · rw [if_neg hcn]

theorem inv1_p1 (s : List Char) : inv1 (replace_newlines s) = true :=
  inv1_p1Aux rfl rfl s

theorem p1Aux_id {pv2 pv1 pv2' pv1' : Option Char}
    (h2 : isUS pv2 = isUS pv2') (h1 : isUS pv1 = isUS pv1')
    {s : List Char} (h : inv1Aux pv2 pv1 s = true) :
    p1Aux pv2' pv1' s = s := by
  induction s generalizing pv2 pv1 pv2' pv1' with
  | nil => rfl
  | cons c rest ih =>
    unfold inv1Aux at h
    rw [Bool.and_eq_true] at h
    obtain ⟨hjust, hrest⟩ := h
    unfold p1Aux
    have he : (if (c = '\n' && !(isUS pv2' && isUS pv1')
        && !(next2is '_' '_' rest)) = true then ' ' else c) = c := by
      cases hcond : (c = '\n' && !(isUS pv2' && isUS pv1')
          && !(next2is '_' '_' rest)) with
      | false => simp only [hcond, Bool.false_eq_true, if_false]
      | true =>
        exfalso
        simp only [Bool.and_eq_true, Bool.not_eq_true', decide_eq_true_eq] at hcond
        obtain ⟨⟨hcn, hA'⟩, hB'⟩ := hcond
        rw [if_pos hcn] at hjust
        rw [Bool.or_eq_true] at hjust
        rw [← h2, ← h1] at hA'
        rcases hjust with hA | hB
        · rw [hA] at hA'
          exact absurd hA' (by decide)
        · rw [hB] at hB'
          exact absurd hB' (by decide)
    rw [he, ih h1 rfl hrest]

theorem p1_id {s : List Char} (h : inv1 s = true) : replace_newlines s = s :=
  p1Aux_id rfl rfl h

/-! ### Pass 2 lemmas -/

theorem dropWhile_of_next2us {l : List Char} (h : next2is '_' '_' l = true) :
    l.dropWhile isPySpace = l := by
  cases l with
  | nil => simp [next2is] at h
  | cons x t =>
    cases t with
    | nil => simp [next2is] at h
    | cons y r =>
      simp only [next2is, Bool.and_eq_true, decide_eq_true_eq] at h
      rw [List.dropWhile_cons_of_neg]
      rw [h.1]
      decide

theorem inv1_p2F (fuel : Nat) :
    ∀ {s : List Char} {a b a' b' : Option Char},
    inv1Aux a b s = true → isUS a = isUS a' → isUS b = isUS b' →
    inv1Aux a' b' (p2F fuel s) = true := by
  induction fuel with
  | zero =>
    intro s a b a' b' h ha hb
    show inv1Aux a' b' s = true
    rw [inv1Aux_congr ha.symm hb.symm s]
    exact h
  | succ fuel ih =>
    intro s a b a' b' h ha hb
    cases s with
    | nil => rfl
    | cons c rest =>
      unfold inv1Aux at h
      rw [Bool.and_eq_true] at h
      obtain ⟨hjust, hrest⟩ := h
      unfold p2F
      by_cases hcn : c = '\n'
      · rw [if_pos hcn]
        unfold inv1Aux
        rw [Bool.and_eq_true]
        constructor
        · rw [if_pos hcn] at hjust
          rw [hcn, if_pos rfl, Bool.or_eq_true]
          rw [Bool.or_eq_true] at hjust
          rcases hjust with hA | hB
          · left
            rw [← ha, ← hb]
            exact hA
          · right
            rw [next2_p2, dropWhile_of_next2us hB]
            exact hB
        · have hrest' : inv1Aux b (some '\n') rest = true := by
            rw [inv1Aux_congr (rfl : isUS b = isUS b)
              (show isUS (some c) = isUS (some '\n') from by rw [hcn]) rest] at hrest
            exact hrest
          have hin : inv1Aux b' (some '\n') (rest.dropWhile isPySpace) = true :=
            inv1_dropWhile_nu isPySpace (fun x hx => space_ne_us hx) hrest'
              (show isUS (some '\n') = false from by decide) b' (some '\n')
              (show isUS (some '\n') = false from by decide)
          rw [hcn]
          exact ih hin rfl rfl
      · rw [if_neg hcn]
        unfold inv1Aux
        rw [Bool.and_eq_true]
        constructor
        · rw [if_neg hcn] at hjust ⊢
        · exact ih hrest hb rfl

theorem headCheck_eq_head? (l : List Char) :
    (match l with | x :: _ => !isPySpace x | [] => true)
      = (match l.head? with | some x => !isPySpace x | none => true) := by
  cases l <;> rfl

theorem dropWhile_headCheck (p : Char → Bool) (l : List Char) :
    (match (l.dropWhile p).head? with | some x => !p x | none => true) = true := by
  induction l with
  | nil => rfl
  | cons c rest ih =>
    by_cases hc : p c = true
    · rw [List.dropWhile_cons_of_pos hc]
      exact ih
    · rw [List.dropWhile_cons_of_neg hc]
      simp only [List.head?_cons]
      simp [hc]

theorem inv2_p2F (fuel : Nat) :
    ∀ s : List Char, s.length ≤ fuel → inv2 (p2F fuel s) = true := by
  induction fuel with
  | zero =>
    intro s hs
    rw [Nat.le_zero, List.length_eq_zero] at hs
    rw [hs]
    rfl
  | succ fuel ih =>
    intro s hs
    cases s with
    | nil => rfl
    | cons c rest =>
      rw [List.length_cons, Nat.succ_le_succ_iff] at hs
      unfold p2F
      by_cases hcn : c = '\n'
      · rw [if_pos hcn]
        unfold inv2
        rw [Bool.and_eq_true]
        constructor
        · rw [if_pos hcn, headCheck_eq_head?, head?_p2F]
          exact dropWhile_headCheck isPySpace rest
        · exact ih _ (Nat.le_trans (length_dropWhile_le _ _) hs)
      · rw [if_neg hcn]
        unfold inv2
        rw [Bool.and_eq_true]
        exact ⟨by rw [if_neg hcn], ih _ hs⟩

theorem p2F_id (fuel : Nat) : ∀ {s : List Char}, inv2 s = true → p2F fuel s = s := by
  induction fuel with
  | zero => intro s _; rfl
  | succ fuel ih =>
    intro s h
    cases s with
    | nil => rfl
    | cons c rest =>
      unfold inv2 at h
      rw [Bool.and_eq_true] at h
      obtain ⟨hchk, hrest⟩ := h
      unfold p2F
      by_cases hcn : c = '\n'
      · rw [if_pos hcn]
        rw [if_pos hcn] at hchk
        have hdw : rest.dropWhile isPySpace = rest := by
          cases rest with
          | nil => rfl
          | cons x t =>
            simp only [Bool.not_eq_true'] at hchk
            rw [List.dropWhile_cons_of_neg (by simp [hchk])]
        rw [hdw, ih hrest]
      · rw [if_neg hcn, ih hrest]

/-! ### Pass 3 lemmas -/

theorem p3F_nil (fuel : Nat) : p3F fuel [] = [] := by
  cases fuel <;> rfl

theorem cons_of_head? {l : List Char} {x : Char} (h : l.head? = some x) :
    ∃ t, l = x :: t := by
  cases l with
  | nil => simp at h
  | cons y t =>
    simp only [List.head?_cons, Option.some.injEq] at h
    exact ⟨t, by rw [h]⟩

theorem inv1_p3F (fuel : Nat) :
    ∀ {s : List Char} {a b a' b' : Option Char},
    inv1Aux a b s = true → isUS a = isUS a' → isUS b = isUS b' →
    inv1Aux a' b' (p3F fuel s) = true := by
  induction fuel with
  | zero =>
    intro s a b a' b' h ha hb
    show inv1Aux a' b' s = true
    rw [inv1Aux_congr ha.symm hb.symm s]
    exact h
  | succ fuel ih =>
    intro s a b a' b' h ha hb
    cases s with
    | nil => rfl
    | cons c rest =>
      unfold inv1Aux at h
      rw [Bool.and_eq_true] at h
      obtain ⟨hjust, hrest⟩ := h
      unfold p3F
      by_cases hsp : c = ' '
      · rw [if_pos hsp]
        cases rest with
        | nil =>
          rw [p3F_nil]
          unfold inv1Aux
          rw [Bool.and_eq_true]
          exact ⟨by rw [hsp, if_neg (show ¬ (' ' = '\n') from by decide)], rfl⟩
        | cons c2 r =>
          dsimp only
          by_cases hc2 : c2 = ' '
          · rw [if_pos hc2]
            unfold inv1Aux
            rw [Bool.and_eq_true]
            constructor
            · rw [if_neg (show ¬ (' ' = '\n') from by decide)]
            · have hrest' : inv1Aux b (some ' ') (c2 :: r) = true := by
                rw [inv1Aux_congr (rfl : isUS b = isUS b)
                  (show isUS (some c) = isUS (some ' ') from by rw [hsp]) (c2 :: r)] at hrest
                exact hrest
              have hin : inv1Aux b' (some ' ') ((c2 :: r).dropWhile (· = ' ')) = true :=
                inv1_dropWhile_nu (· = ' ')
                  (fun x hx => by simp at hx; rw [hx]; decide) hrest'
                  (show isUS (some ' ') = false from by decide) b' (some ' ')
                  (show isUS (some ' ') = false from by decide)
              exact ih hin rfl rfl
          · rw [if_neg hc2]
            unfold inv1Aux
            rw [Bool.and_eq_true]
            constructor
            · rw [hsp, if_neg (show ¬ (' ' = '\n') from by decide)]
            · exact ih hrest hb rfl
      · rw [if_neg hsp]
        unfold inv1Aux
        rw [Bool.and_eq_true]
        constructor
        · by_cases hcn : c = '\n'
          · rw [if_pos hcn] at hjust ⊢
            rw [Bool.or_eq_true] at hjust
            rw [Bool.or_eq_true, next2_p3]
            rcases hjust with hA | hB
            · left
              rw [← ha, ← hb]
              exact hA
            · right
              exact hB
          · rw [if_neg hcn]
        · exact ih hrest hb rfl

theorem inv2_p3F (fuel : Nat) :
    ∀ {s : List Char}, inv2 s = true → inv2 (p3F fuel s) = true := by
  induction fuel with
  | zero => intro s h; exact h
  | succ fuel ih =>
    intro s h
    cases s with
    | nil => rfl
    | cons c rest =>
      unfold inv2 at h
      rw [Bool.and_eq_true] at h
      obtain ⟨hchk, hrest⟩ := h
      unfold p3F
      by_cases hsp : c = ' '
      · rw [if_pos hsp]
        cases rest with
        | nil =>
          rw [p3F_nil]
          unfold inv2
          rw [Bool.and_eq_true]
          exact ⟨by rw [hsp, if_neg (show ¬ (' ' = '\n') from by decide)], rfl⟩
        | cons c2 r =>
          dsimp only
          by_cases hc2 : c2 = ' '
          · rw [if_pos hc2]
            unfold inv2
            rw [Bool.and_eq_true]
            constructor
            · rw [if_neg (show ¬ (' ' = '\n') from by decide)]
            · exact ih (inv2_dropWhile _ hrest)
          · rw [if_neg hc2]
            unfold inv2
            rw [Bool.and_eq_true]
            exact ⟨by rw [hsp, if_neg (show ¬ (' ' = '\n') from by decide)], ih hrest⟩
      · rw [if_neg hsp]
        unfold inv2
        rw [Bool.and_eq_true]
        constructor
        · by_cases hcn : c = '\n'
          · rw [if_pos hcn] at hchk ⊢
            rw [headCheck_eq_head?, head?_p3F]
            rw [headCheck_eq_head?] at hchk
            exact hchk
          · rw [if_neg hcn]
        · exact ih hrest

theorem p3_spaceCheck (fuel : Nat) (l : List Char) :
    (match p3F fuel (l.dropWhile (· = ' ')) with
      | x :: _ => !(x = ' ')
      | [] => true) = true := by
  have h1 : (p3F fuel (l.dropWhile (· = ' '))).head? = (l.dropWhile (· = ' ')).head? :=
    head?_p3F _ _
  cases hp : p3F fuel (l.dropWhile (· = ' ')) with
  | nil => rfl
  | cons x t =>
    rw [hp] at h1
    have h2 := dropWhile_headCheck (· = ' ') l
    rw [← h1] at h2
    simpa using h2

theorem inv3_p3F (fuel : Nat) :
    ∀ s : List Char, s.length ≤ fuel → inv3 (p3F fuel s) = true := by
  induction fuel with
  | zero =>
    intro s hs
    rw [Nat.le_zero, List.length_eq_zero] at hs
    rw [hs]
    rfl
  | succ fuel ih =>
    intro s hs
    cases s with
    | nil => rfl
    | cons c rest =>
      rw [List.length_cons, Nat.succ_le_succ_iff] at hs
      unfold p3F
      by_cases hsp : c = ' '
      · rw [if_pos hsp]
        cases rest with
        | nil =>
          rw [p3F_nil]
          unfold inv3
          rw [Bool.and_eq_true]
          exact ⟨by rw [hsp, if_pos rfl], rfl⟩
        | cons c2 r =>
          dsimp only
          by_cases hc2 : c2 = ' '
          · rw [if_pos hc2]
            unfold inv3
            rw [Bool.and_eq_true]
            constructor
            · rw [if_pos rfl]
              exact p3_spaceCheck fuel (c2 :: r)
            · exact ih _ (Nat.le_trans (length_dropWhile_le _ _) hs)
          · rw [if_neg hc2]
            unfold inv3
            rw [Bool.and_eq_true]
            constructor
            · rw [hsp, if_pos rfl]
              have hh : (p3F fuel (c2 :: r)).head? = some c2 := by
                rw [head?_p3F]
                rfl
              obtain ⟨t, ht⟩ := cons_of_head? hh
              rw [ht]
              simp [hc2]
            · exact ih _ hs
      · rw [if_neg hsp]
        unfold inv3
        rw [Bool.and_eq_true]
        exact ⟨by rw [if_neg hsp], ih _ hs⟩

theorem p3F_id (fuel : Nat) : ∀ {s : List Char}, inv3 s = true → p3F fuel s = s := by
  induction fuel with
  | zero => intro s _; rfl
  | succ fuel ih =>
    intro s h
    cases s with
    | nil => rfl
    | cons c rest =>
      unfold inv3 at h
      rw [Bool.and_eq_true] at h
      obtain ⟨hchk, hrest⟩ := h
      unfold p3F
      by_cases hsp : c = ' '
      · rw [if_pos hsp]
        cases rest with
        | nil => rw [p3F_nil]
        | cons c2 r =>
          dsimp only
          rw [if_pos hsp] at hchk
          have hc2 : ¬ (c2 = ' ') := by simpa using hchk
          rw [if_neg hc2, ih hrest]
      · rw [if_neg hsp, ih hrest]

/-! ### Pass 4 and strip lemmas -/

theorem p4F_id (fuel : Nat) : ∀ {s : List Char}, inv2 s = true → p4F fuel s = s := by
  induction fuel with
  | zero => intro s _; rfl
  | succ fuel ih =>
    intro s h
    cases s with
    | nil => rfl
    | cons c rest =>
      unfold inv2 at h
      rw [Bool.and_eq_true] at h
      obtain ⟨hchk, hrest⟩ := h
      unfold p4F
      by_cases hcn : c = '\n'
      · rw [if_pos hcn]
        rw [if_pos hcn] at hchk
        have htw : rest.takeWhile isPySpace = [] := by
          cases rest with
          | nil => rfl
          | cons x t =>
            rw [List.takeWhile_cons_of_neg]
            simpa using hchk
        rw [htw]
        rw [if_neg (show ¬ (List.contains [] '\n' = true) from by decide)]
        rw [ih hrest]
      · rw [if_neg hcn, ih hrest]

theorem rstrip_us_head (l : List Char) :
    rstrip ('_' :: l) ≠ [] ∧ (rstrip ('_' :: l)).head? = some '_' := by
  rw [rstrip_cons]
  split
  · rw [if_neg (show ¬ (isPySpace '_' = true) from by decide)]
    exact ⟨by simp, rfl⟩
  · exact ⟨by simp, rfl⟩

theorem next2_rstrip {l : List Char} (h : next2is '_' '_' l = true) :
    next2is '_' '_' (rstrip l) = true := by
  cases l with
  | nil => simp [next2is] at h
  | cons x t =>
    cases t with
    | nil => simp [next2is] at h
    | cons y r =>
      simp only [next2is, Bool.and_eq_true, decide_eq_true_eq] at h
      obtain ⟨hx, hy⟩ := h
      subst hx
      subst hy
      rw [rstrip_cons]
      have h1 := rstrip_us_head r
      rw [if_neg (by simpa using h1.1)]
      rw [next2is_cons_us, headIsUS_eq_head?, h1.2]
      rfl

theorem head?_rstrip {l : List Char} (h : rstrip l ≠ []) :
    (rstrip l).head? = l.head? := by
  cases l with
  | nil => exact absurd rfl h
  | cons c rest =>
    rw [rstrip_cons] at h ⊢
    by_cases h1 : (rstrip rest).isEmpty = true
    · rw [if_pos h1] at h ⊢
      by_cases h2 : isPySpace c = true
      · rw [if_pos h2] at h
        exact absurd rfl h
      · rw [if_neg h2]
        rfl
    · rw [if_neg h1]
      rfl

theorem inv1_rstrip : ∀ {s : List Char} {a b : Option Char},
    inv1Aux a b s = true → inv1Aux a b (rstrip s) = true := by
  intro s
  induction s with
  | nil => intro a b h; exact h
  | cons c rest ih =>
    intro a b h
    unfold inv1Aux at h
    rw [Bool.and_eq_true] at h
    obtain ⟨hjust, hrest⟩ := h
    rw [rstrip_cons]
    by_cases he : (rstrip rest).isEmpty = true
    · rw [if_pos he]
      by_cases hspc : isPySpace c = true
      · rw [if_pos hspc]
        rfl
      · rw [if_neg hspc]
        have hcn : ¬ (c = '\n') := by
          intro hq
          rw [hq] at hspc
          exact hspc rfl
        unfold inv1Aux
        rw [Bool.and_eq_true]
        exact ⟨by rw [if_neg hcn], rfl⟩
    · rw [if_neg he]
      unfold inv1Aux
      rw [Bool.and_eq_true]
      constructor
      · by_cases hcn : c = '\n'
        · rw [if_pos hcn] at hjust ⊢
          rw [Bool.or_eq_true] at hjust
          rw [Bool.or_eq_true]
          rcases hjust with hA | hB
          · left
            exact hA
          · right
            exact next2_rstrip hB
        · rw [if_neg hcn]
      · exact ih hrest

theorem inv2_rstrip : ∀ {s : List Char}, inv2 s = true → inv2 (rstrip s) = true := by
  intro s
  induction s with
  | nil => intro h; exact h
  | cons c rest ih =>
    intro h
    unfold inv2 at h
    rw [Bool.and_eq_true] at h
    obtain ⟨hchk, hrest⟩ := h
    rw [rstrip_cons]
    by_cases he : (rstrip rest).isEmpty = true
    · rw [if_pos he]
      by_cases hspc : isPySpace c = true
      · rw [if_pos hspc]
        rfl
      · rw [if_neg hspc]
        unfold inv2
        rw [Bool.and_eq_true]
        refine ⟨?_, rfl⟩
        split
        · rfl
        · rfl
    · rw [if_neg he]
      unfold inv2
      rw [Bool.and_eq_true]
      constructor
      · by_cases hcn : c = '\n'
        · rw [if_pos hcn] at hchk ⊢
          have hne : rstrip rest ≠ [] := by simpa using he
          rw [headCheck_eq_head?, head?_rstrip hne, ← headCheck_eq_head?]
          exact hchk
        · rw [if_neg hcn]
      · exact ih hrest

theorem inv3_rstrip : ∀ {s : List Char}, inv3 s = true → inv3 (rstrip s) = true := by
  intro s
  induction s with
  | nil => intro h; exact h
  | cons c rest ih =>
    intro h
    unfold inv3 at h
    rw [Bool.and_eq_true] at h
    obtain ⟨hchk, hrest⟩ := h
    rw [rstrip_cons]
    by_cases he : (rstrip rest).isEmpty = true
    · rw [if_pos he]
      by_cases hspc : isPySpace c = true
      · rw [if_pos hspc]
        rfl
      · rw [if_neg hspc]
        unfold inv3
        rw [Bool.and_eq_true]
        refine ⟨?_, rfl⟩
        split
        · rfl
        · rfl
    · rw [if_neg he]
      unfold inv3
      rw [Bool.and_eq_true]
      constructor
      · by_cases hsp : c = ' '
        · rw [if_pos hsp] at hchk ⊢
          have hne : rstrip rest ≠ [] := by simpa using he
          cases rest with
          | nil => exact absurd rfl hne
          | cons x t =>
            have hh : (rstrip (x :: t)).head? = some x := by
              rw [head?_rstrip hne]
              rfl
            obtain ⟨t', ht'⟩ := cons_of_head? hh
            rw [ht']
            simpa using hchk
        · rw [if_neg hsp]
      · exact ih hrest

theorem rstrip_last (s : List Char) :
    rstrip s = [] ∨
    (match (rstrip s).getLast? with | some c => !isPySpace c | none => true) = true := by
  induction s with
  | nil => exact Or.inl rfl
  | cons c rest ih =>
    rw [rstrip_cons]
    by_cases he : (rstrip rest).isEmpty = true
    · rw [if_pos he]
      by_cases hspc : isPySpace c = true
      · rw [if_pos hspc]
        exact Or.inl rfl
      · rw [if_neg hspc]
        right
        simp [hspc]
    · rw [if_neg he]
      right
      have hne : rstrip rest ≠ [] := by simpa using he
      rcases ih with hnil | hlast
      · exact absurd hnil hne
      · cases hrr : rstrip rest with
        | nil => exact absurd hrr hne
        | cons x t =>
          rw [List.getLast?_cons_cons]
          rw [hrr] at hlast
          exact hlast

theorem rstrip_eq_self_of_last {s : List Char}
    (h : (match s.getLast? with | some c => !isPySpace c | none => true) = true) :
    rstrip s = s := by
  induction s with
  | nil => rfl
  | cons c rest ih =>
    rw [rstrip_cons]
    cases rest with
    | nil =>
      simp only [List.getLast?_singleton] at h
      rw [if_pos (show (rstrip ([] : List Char)).isEmpty = true from rfl)]
      rw [if_neg (show ¬ (isPySpace c = true) from by simpa using h)]
    | cons x t =>
      rw [List.getLast?_cons_cons] at h
      have hr : rstrip (x :: t) = x :: t := ih h
      rw [hr]
      rw [if_neg (by simp)]

theorem pyStrip_id {s : List Char} (h : noEdgeSpace s = true) : pyStrip s = s := by
  unfold noEdgeSpace at h
  rw [Bool.and_eq_true] at h
  obtain ⟨hhead, hlast⟩ := h
  have hl : lstrip s = s := by
    cases s with
    | nil => rfl
    | cons c rest =>
      unfold lstrip
      rw [List.dropWhile_cons_of_neg]
      simpa using hhead
  rw [pyStrip, hl, rstrip_eq_self_of_last hlast]

theorem noEdgeSpace_pyStrip (s : List Char) : noEdgeSpace (pyStrip s) = true := by
  unfold noEdgeSpace pyStrip
  rw [Bool.and_eq_true]
  constructor
  · by_cases hne : rstrip (lstrip s) = []
    · rw [hne]
      rfl
    · rw [head?_rstrip hne]
      have := dropWhile_headCheck isPySpace s
      exact this
  · rcases rstrip_last (lstrip s) with hnil | hlast
    · rw [hnil]
      rfl
    · exact hlast

/-- C8: the Text Cleaner is idempotent — applying `clean_text_section`
twice yields the same output as applying it once, for every string. -/
theorem clean_text_section_idempotent (s : List Char) :
    clean_text_section (clean_text_section s) = clean_text_section s := by
  have h1 : inv1 (replace_newlines s) = true := inv1_p1 s
  have h1b : inv1 (remove_newline_prefix_space (replace_newlines s)) = true :=
    inv1_p2F _ h1 rfl rfl
  have h2b : inv2 (remove_newline_prefix_space (replace_newlines s)) = true :=
    inv2_p2F _ _ (Nat.le_refl _)
  have h1c : inv1 (collapseSpaces (remove_newline_prefix_space (replace_newlines s)))
      = true := inv1_p3F _ h1b rfl rfl
  have h2c : inv2 (collapseSpaces (remove_newline_prefix_space (replace_newlines s)))
      = true := inv2_p3F _ h2b
  have h3c : inv3 (collapseSpaces (remove_newline_prefix_space (replace_newlines s)))
      = true := inv3_p3F _ _ (Nat.le_refl _)
  have h4 : collapseBlankLines (collapseSpaces (remove_newline_prefix_space
      (replace_newlines s))) = collapseSpaces (remove_newline_prefix_space
      (replace_newlines s)) := p4F_id _ h2c
  have hclean : clean_text_section s = pyStrip (collapseSpaces
      (remove_newline_prefix_space (replace_newlines s))) := by
    unfold clean_text_section
    rw [h4]
  have hT1 : inv1 (clean_text_section s) = true := by
    rw [hclean, pyStrip]
    exact inv1_rstrip (inv1_dropWhile_nu isPySpace (fun x hx => space_ne_us hx)
      h1c rfl none none rfl)
  have hT2 : inv2 (clean_text_section s) = true := by
    rw [hclean, pyStrip]
    exact inv2_rstrip (inv2_dropWhile _ h2c)
  have hT3 : inv3 (clean_text_section s) = true := by
    rw [hclean, pyStrip]
    exact inv3_rstrip (inv3_dropWhile _ h3c)
  have hTe : noEdgeSpace (clean_text_section s) = true := by
    rw [hclean]
    exact noEdgeSpace_pyStrip _
  have e1 : replace_newlines (clean_text_section s) = clean_text_section s := p1_id hT1
  have e2 : remove_newline_prefix_space (clean_text_section s) = clean_text_section s :=
    p2F_id _ hT2
  have e3 : collapseSpaces (clean_text_section s) = clean_text_section s := p3F_id _ hT3
  have e4 : collapseBlankLines (clean_text_section s) = clean_text_section s :=
    p4F_id _ hT2
  have e5 : pyStrip (clean_text_section s) = clean_text_section s := pyStrip_id hTe
  calc clean_text_section (clean_text_section s)
      = pyStrip (collapseBlankLines (collapseSpaces (remove_newline_prefix_space
          (replace_newlines (clean_text_section s))))) := rfl
    _ = clean_text_section s := by rw [e1, e2, e3, e4, e5]

end Sentencing
